import Mathlib

/-!
# ssebide/ssebidecoin — verification of the ledger/consensus core

Shallow embedding of the Rust sources under `src/lib/src/` (sha256.rs,
utils.rs, types.rs, types/blockchain.rs), with theorems settling the frozen
claims about the spec.

Modelling conventions, fixed once here:

* `Hash` (a 256-bit digest wrapping a `U256`) is modelled as `Nat`; equality,
  total order and `matches_target` (numeric `≤`, sha256.rs line 40) carry over.
  `Hash::zero()` is `0`.
* The cryptographic primitives are external collaborators (spec §1, §6): the
  sha256-of-CBOR fingerprint of each record kind, and `Signature::verify`, are
  abstracted into a `HashFn` bundle of function parameters. Every theorem
  quantifies over the bundle; concrete instances are used for witnesses.
* `u64` arithmetic is modelled as exact `Nat` arithmetic, except where a claim
  is specifically about wrap-around: the unchecked `u64` subtraction in
  `Block::calculate_miner_fees` (types.rs line 210) is modelled by `u64sub`,
  two's-complement wrapping at `2 ^ 64`. The `as u32` truncating cast in the
  halving exponent (types.rs line 169) is kept as `% 2 ^ 32`, and the
  `2u64.pow` of that exponent is a panic for exponents of 64 or more in both
  build modes (modelled as `none`, see `Block.verify_coinbase_transaction`).
* `DateTime<Utc>` timestamps are modelled as `Int` (seconds); `chrono`
  subtraction plus `num_seconds` is `Int` subtraction.
* `HashMap` is modelled as an association list (`alookup` finds the first
  matching key); map iteration order only ever feeds commutative sums, so the
  list order is an admissible stand-in for the map's arbitrary order.
* A Rust panic (`unwrap`/`expect` failure, slice index out of bounds,
  `U256::from_str_radix` failure, arithmetic overflow in the `uint` crate or
  `BigDecimal` division by zero) is modelled by returning `none` from an
  `Option`-valued function.
* `BigDecimal` scaling in `try_adjust_target` (blockchain.rs lines 140-151) is
  modelled as exact rational scaling truncated toward zero, i.e. `Nat`
  division `(target * elapsed) / ideal`; the crate's 100-significant-digit
  division is treated as exact, which is the spec's stated intent
  ("arbitrary-precision decimal arithmetic to avoid integer truncation
  artifacts").
* Modelled from the spec: the crate-root constants `INITIAL_REWARD`,
  `HALVING_INTERVAL`, `DIFFICULTY_UPDATE_INTERVAL`, `IDEAL_BLOCK_TIME`,
  `MIN_TARGET` and `MAX_MEMPOOL_TRANSACTION_AGE` are referenced by the sources
  (as `crate::…`) but the crate root defining their values is not under
  `src/`; the spec gives no concrete values either, so they are kept abstract
  as the fields of a `Consts` parameter.
* `Utc::now()` in `add_to_mempool`/`cleanup_mempool` is an explicit `now`
  parameter.
-/

/-- Error taxonomy of `src/lib/src/error.rs` (the variants used by the core;
the file itself is referenced by the sources as `crate::error` but is not
under `src/`; the four validation variants are those named by the spec §7 and
used at every return site in types.rs and types/blockchain.rs). -/
inductive SbdError where
  | InvalidBlock
  | InvalidMerkleRoot
  | InvalidTransaction
  | InvalidSignature
deriving DecidableEq, Repr

/-- Rust's `Result<α, SbdError>` as used by the core (`crate::error::Result`). -/
inductive RResult (α : Type) where
  | ok (val : α)
  | error (e : SbdError)
deriving DecidableEq, Repr

/-- `TransactionOutput` (types.rs lines 251-256): value in integer sub-units,
an opaque 128-bit unique id, and the owner's public key (opaque, modelled as
`Nat`). -/
structure TransactionOutput where
  value : Nat
  unique_id : Nat
  pubkey : Nat
deriving DecidableEq, Repr

/-- `TransactionInput` (types.rs lines 245-249): the spent output's owning
transaction hash plus an authorizing signature (opaque, modelled as `Nat`). -/
structure TransactionInput where
  prev_transaction_output_hash : Nat
  signature : Nat
deriving DecidableEq, Repr

/-- `Transaction` (types.rs lines 264-268). -/
structure Transaction where
  inputs : List TransactionInput
  outputs : List TransactionOutput
deriving DecidableEq, Repr

/-- `BlockHeader` (types.rs lines 214-221). -/
structure BlockHeader where
  timestamp : Int
  nonce : Nat
  prev_block_hash : Nat
  merkle_root : Nat
  target : Nat
deriving DecidableEq, Repr

/-- `Block` (types.rs lines 87-91). -/
structure Block where
  header : BlockHeader
  transactions : List Transaction
deriving DecidableEq, Repr

/-- `Blockchain` (types/blockchain.rs lines 12-19): chain, current target,
UTXO set keyed by transaction hash carrying the mempool reservation mark, and
the mempool of `(arrival_timestamp, transaction)` pairs. -/
structure Blockchain where
  blocks : List Block
  target : Nat
  utxos : List (Nat × (Bool × TransactionOutput))
  mempool : List (Int × Transaction)
deriving DecidableEq, Repr

/-- The external cryptographic collaborators (spec §1, §6): the
sha256-over-CBOR fingerprint of each record kind (`Hash::hash`, sha256.rs
lines 24-37, instantiated at `Transaction`, `TransactionOutput`,
`BlockHeader`, `Block` and at the 2-element hash array hashed by
`MerkleRoot::calculate`), and `Signature::verify` (crypto.rs, out of scope):
`sigVerify sig msg pk` is `Signature::verify(&msg, &pk)` on `sig`. -/
structure HashFn where
  txHash : Transaction → Nat
  outHash : TransactionOutput → Nat
  headerHash : BlockHeader → Nat
  blockHash : Block → Nat
  pairHash : Nat → Nat → Nat
  sigVerify : Nat → Nat → Nat → Bool

/-- Modelled from the spec: the crate-root constants (`crate::INITIAL_REWARD`
and friends), whose defining module is not under `src/`. They stay abstract;
every theorem quantifies over them. -/
structure Consts where
  INITIAL_REWARD : Nat
  HALVING_INTERVAL : Nat
  DIFFICULTY_UPDATE_INTERVAL : Nat
  IDEAL_BLOCK_TIME : Nat
  MIN_TARGET : Nat
  MAX_MEMPOOL_TRANSACTION_AGE : Nat

/-- `HashMap` lookup on the association-list model: first binding wins. -/
def alookup {α : Type} : List (Nat × α) → Nat → Option α
  | [], _ => none
  | (k, v) :: rest, key => if k = key then some v else alookup rest key

/-- `Hash::matches_target` (sha256.rs lines 40-42): numeric `≤`. -/
def Hash.matches_target (h target : Nat) : Bool := h ≤ target

/-- The wrapping `u64` subtraction `a - b` (two's complement at `2 ^ 64`),
used only where the source performs an unchecked `u64` subtraction
(types.rs line 210, and the sort key of blockchain.rs line 264). -/
def u64sub (a b : Nat) : Nat := (((a : Int) - (b : Int)) % ((2 : Int) ^ 64)).toNat

/-- Sum of a transaction's output values (`outputs.iter().map(|o| o.value).sum()`). -/
def outSum (tx : Transaction) : Nat := (tx.outputs.map (·.value)).sum

/-!
## Fingerprint / Merkle layer — utils.rs
-/

/-- One pass of the `for pair in layer.chunks(2)` loop of
`MerkleRoot::calculate` (utils.rs lines 17-22): hash adjacent pairs with
`Hash::hash(&[left, right])`, and when the level has odd length the trailing
chunk has no second element, so `pair.get(1).unwrap_or(&pair[0])` hashes the
last hash against itself. -/
def hashPairs (H : HashFn) : List Nat → List Nat
  | [] => []
  | [a] => [H.pairHash a a]
  | a :: b :: rest => H.pairHash a b :: hashPairs H rest

theorem hashPairs_length (H : HashFn) :
    ∀ l : List Nat, (hashPairs H l).length = (l.length + 1) / 2
  | [] => by simp [hashPairs]
  | [_] => by simp [hashPairs]
  | _ :: _ :: rest => by
    simp only [hashPairs, List.length_cons, hashPairs_length H rest]
    omega

/-- The `while layer.len() > 1` loop of `MerkleRoot::calculate` (utils.rs
lines 15-24) followed by the final `layer[0]` read (line 25); indexing an
empty layer panics, hence `none` on the empty list. -/
def merkleLoop (H : HashFn) : List Nat → Option Nat
  | [] => none
  | [a] => some a
  | a :: b :: rest => merkleLoop H (hashPairs H (a :: b :: rest))
  termination_by l => l.length
  decreasing_by simp [hashPairs_length]; omega

/-- `MerkleRoot::calculate` (utils.rs lines 10-26): hash every transaction
into the initial layer, then fold levels until one hash remains. The root is
the bare digest (the `MerkleRoot` newtype adds nothing to the model). -/
def MerkleRoot.calculate (H : HashFn) (transactions : List Transaction) : Option Nat :=
  merkleLoop H (transactions.map H.txHash)

/-- Spec-side formulation of one merkle level, written from the claim's
words rather than the source: the i-th node of the next level is the hash of
the pair at positions `2i` and `2i+1`, the last element standing in for a
missing right neighbour when the level has odd length. -/
def specLevel (H : HashFn) (l : List Nat) : List Nat :=
  (List.range ((l.length + 1) / 2)).map
    (fun i => H.pairHash (l.getD (2 * i) 0) (l.getD (min (2 * i + 1) (l.length - 1)) 0))

theorem specLevel_length (H : HashFn) (l : List Nat) :
    (specLevel H l).length = (l.length + 1) / 2 := by
  simp [specLevel]

/-- Spec-side root, written from the claim's words: repeatedly replace the
level with `specLevel` until a single hash remains. -/
def merkleSpecRoot (H : HashFn) : List Nat → Option Nat
  | [] => none
  | [a] => some a
  | a :: b :: rest => merkleSpecRoot H (specLevel H (a :: b :: rest))
  termination_by l => l.length
  decreasing_by simp [specLevel_length]; omega

theorem specLevel_nil (H : HashFn) : specLevel H [] = [] := by
  simp [specLevel]

theorem specLevel_singleton (H : HashFn) (a : Nat) :
    specLevel H [a] = [H.pairHash a a] := by
  simp [specLevel, List.range_succ]

theorem specLevel_cons_cons (H : HashFn) (a b : Nat) (rest : List Nat) :
    specLevel H (a :: b :: rest) = H.pairHash a b :: specLevel H rest := by
  simp only [specLevel, List.length_cons]
  rw [show (rest.length + 1 + 1 + 1) / 2 = (rest.length + 1) / 2 + 1 from by omega]
  rw [List.range_succ_eq_map]
  simp only [List.map_cons, List.map_map]
  refine congrArg₂ List.cons ?_ ?_
  · rw [show min (2 * 0 + 1) (rest.length + 1 + 1 - 1) = 1 from by omega]
    rfl
  · apply List.map_congr_left
    intro i hi
    simp only [List.mem_range] at hi
    simp only [Function.comp_apply]
    have hm : 2 * i + 1 ≤ rest.length := by omega
    rw [show 2 * (i + 1) = 2 * i + 2 from by omega]
    rw [show min (2 * i + 2 + 1) (rest.length + 1 + 1 - 1)
        = min (2 * i + 1) (rest.length - 1) + 2 from by omega]
    rfl

theorem hashPairs_eq_specLevel (H : HashFn) :
    ∀ l : List Nat, hashPairs H l = specLevel H l
  | [] => by simp [hashPairs, specLevel_nil]
  | [a] => by simp [hashPairs, specLevel_singleton]
  | a :: b :: rest => by
    rw [specLevel_cons_cons]
    simp [hashPairs, hashPairs_eq_specLevel H rest]

theorem merkleLoop_eq_specRoot (H : HashFn) :
    ∀ l : List Nat, merkleLoop H l = merkleSpecRoot H l
  | [] => by simp [merkleLoop, merkleSpecRoot]
  | [a] => by simp [merkleLoop, merkleSpecRoot]
  | a :: b :: rest => by
    rw [merkleLoop, merkleSpecRoot, hashPairs_eq_specLevel]
    have hlt : (specLevel H (a :: b :: rest)).length < (a :: b :: rest).length := by
      simp only [specLevel_length, List.length_cons]
      omega
    exact merkleLoop_eq_specRoot H (specLevel H (a :: b :: rest))
  termination_by l => l.length

theorem merkleLoop_isSome (H : HashFn) :
    ∀ l : List Nat, l ≠ [] → (merkleLoop H l).isSome
  | [], h => absurd rfl h
  | [a], _ => by simp [merkleLoop]
  | a :: b :: rest, _ => by
    rw [merkleLoop]
    have hne : hashPairs H (a :: b :: rest) ≠ [] := by
      have := hashPairs_length H (a :: b :: rest)
      intro hcon
      rw [hcon] at this
      simp at this
      omega
    have hlt : (hashPairs H (a :: b :: rest)).length < (a :: b :: rest).length := by
      simp only [hashPairs_length, List.length_cons]
      omega
    exact merkleLoop_isSome H (hashPairs H (a :: b :: rest)) hne
  termination_by l => l.length

/-!
## Block validation — types.rs

`Block::verify_transactions`, `Block::verify_coinbase_transaction` and
`Block::calculate_miner_fees` take the confirmed UTXO view as
`HashMap<Hash, TransactionOutput>` (types.rs lines 105-211).
-/

/-- The per-input body of the inner loop of `Block::calculate_miner_fees`
(types.rs lines 186-200): resolve each input against the confirmed UTXOs
(`InvalidTransaction` when unresolved), reject an input hash already present
in the block-wide `inputs` accumulator, then record it. -/
def feeInsLoop (utxos : List (Nat × TransactionOutput)) :
    List TransactionInput → List (Nat × TransactionOutput) →
    RResult (List (Nat × TransactionOutput))
  | [], acc => .ok acc
  | i :: rest, acc =>
    match alookup utxos i.prev_transaction_output_hash with
    | none => .error .InvalidTransaction
    | some prev_output =>
      if (alookup acc i.prev_transaction_output_hash).isSome then .error .InvalidTransaction
      else feeInsLoop utxos rest ((i.prev_transaction_output_hash, prev_output) :: acc)

/-- The per-output body of the inner loop of `Block::calculate_miner_fees`
(types.rs lines 201-206): reject an output whose hash collides with one
already recorded in the block-wide `outputs` accumulator, then record it. -/
def feeOutsLoop (H : HashFn) :
    List TransactionOutput → List (Nat × TransactionOutput) →
    RResult (List (Nat × TransactionOutput))
  | [], acc => .ok acc
  | o :: rest, acc =>
    if (alookup acc (H.outHash o)).isSome then .error .InvalidTransaction
    else feeOutsLoop H rest ((H.outHash o, o) :: acc)

/-- The `for transaction in self.transactions.iter().skip(1)` loop of
`Block::calculate_miner_fees` (types.rs lines 185-207), threading both
accumulators across transactions. -/
def feeTxLoop (H : HashFn) (utxos : List (Nat × TransactionOutput)) :
    List Transaction → List (Nat × TransactionOutput) → List (Nat × TransactionOutput) →
    RResult (List (Nat × TransactionOutput) × List (Nat × TransactionOutput))
  | [], ins, outs => .ok (ins, outs)
  | tx :: rest, ins, outs =>
    match feeInsLoop utxos tx.inputs ins with
    | .error e => .error e
    | .ok ins2 =>
      match feeOutsLoop H tx.outputs outs with
      | .error e => .error e
      | .ok outs2 => feeTxLoop H utxos rest ins2 outs2

/-- Sum of the `value` fields over an accumulator map
(`inputs.values().map(|output| output.value).sum()`, types.rs lines 208-209). -/
def mapValSum (m : List (Nat × TransactionOutput)) : Nat := (m.map (·.2.value)).sum

/-- `Block::calculate_miner_fees` (types.rs lines 181-211): deduplicate and
resolve every non-coinbase input and output into block-wide maps, then return
`input_value - output_value` — the unchecked `u64` subtraction, modelled as
the wrapping `u64sub` (Rust would wrap in release mode and abort in debug
mode when the outputs exceed the inputs; in neither mode does it return an
error). -/
def Block.calculate_miner_fees (H : HashFn) (b : Block)
    (utxos : List (Nat × TransactionOutput)) : RResult Nat :=
  match feeTxLoop H utxos b.transactions.tail [] [] with
  | .error e => .error e
  | .ok (ins, outs) => .ok (u64sub (mapValSum ins) (mapValSum outs))

/-- `Block::verify_coinbase_transaction` (types.rs lines 154-179). Indexing
`self.transactions[0]` on an empty block panics, hence the `Option`. The
halving exponent keeps the source's `as u32` truncating cast as `% 2 ^ 32`,
and the `let block_reward` line has two further panic paths, both `none`:
`predicted_block_height / HALVING_INTERVAL` is a `u64` division, which
panics when the constant is zero; and `2u64.pow(exponent)` with an exponent
of 64 or more panics in every build mode (overflow abort in debug; in
release the power wraps to zero and the ensuing division panics on divide
by zero). -/
def Block.verify_coinbase_transaction (H : HashFn) (C : Consts) (b : Block)
    (predicted_block_height : Nat) (utxos : List (Nat × TransactionOutput)) :
    Option (RResult Unit) :=
  match b.transactions.head? with
  | none => none
  | some coinbase_transaction =>
    if coinbase_transaction.inputs.length ≠ 0 then some (.error .InvalidTransaction)
    else if coinbase_transaction.outputs.length = 0 then some (.error .InvalidTransaction)
    else
      match b.calculate_miner_fees H utxos with
      | .error e => some (.error e)
      | .ok miner_fees =>
        if C.HALVING_INTERVAL = 0 then none
        else if 64 ≤ predicted_block_height / C.HALVING_INTERVAL % 2 ^ 32 then none
        else
          let block_reward := C.INITIAL_REWARD * 10 ^ 8 /
            2 ^ (predicted_block_height / C.HALVING_INTERVAL % 2 ^ 32)
          if outSum coinbase_transaction ≠ block_reward + miner_fees then
            some (.error .InvalidTransaction)
          else some (.ok ())

/-- The per-input body of `Block::verify_transactions` (types.rs lines
121-141): resolve the input, reject a same-block double spend via the
block-wide `inputs` accumulator, check the signature over the referenced
output hash against the referenced output's public key, accumulate the input
value, record the input. -/
def txCheckInputs (H : HashFn) (utxos : List (Nat × TransactionOutput)) :
    List TransactionInput → Nat → List (Nat × TransactionOutput) →
    RResult (Nat × List (Nat × TransactionOutput))
  | [], v, acc => .ok (v, acc)
  | i :: rest, v, acc =>
    match alookup utxos i.prev_transaction_output_hash with
    | none => .error .InvalidTransaction
    | some prev_output =>
      if (alookup acc i.prev_transaction_output_hash).isSome then .error .InvalidTransaction
      else if H.sigVerify i.signature i.prev_transaction_output_hash prev_output.pubkey
          = false then .error .InvalidSignature
      else txCheckInputs H utxos rest (v + prev_output.value)
        ((i.prev_transaction_output_hash, prev_output) :: acc)

/-- The `for transaction in self.transactions.iter().skip(1)` loop of
`Block::verify_transactions` (types.rs lines 118-150): per transaction, run
the input checks, sum the outputs, and require `input_value ≥ output_value`
(the surplus is the implicit miner fee). -/
def verifyTxLoop (H : HashFn) (utxos : List (Nat × TransactionOutput)) :
    List Transaction → List (Nat × TransactionOutput) → RResult Unit
  | [], _ => .ok ()
  | tx :: rest, acc =>
    match txCheckInputs H utxos tx.inputs 0 acc with
    | .error e => .error e
    | .ok (input_value, acc2) =>
      if input_value < outSum tx then .error .InvalidTransaction
      else verifyTxLoop H utxos rest acc2

/-- `Block::verify_transactions` (types.rs lines 105-152): reject an empty
block, verify the coinbase, then run the per-transaction loop over the
remaining transactions with the block-wide double-spend accumulator. -/
def Block.verify_transactions (H : HashFn) (C : Consts) (b : Block)
    (predicted_block_height : Nat) (utxos : List (Nat × TransactionOutput)) :
    Option (RResult Unit) :=
  if b.transactions = [] then some (.error .InvalidTransaction)
  else
    match b.verify_coinbase_transaction H C predicted_block_height utxos with
    | none => none
    | some (.error e) => some (.error e)
    | some (.ok ()) => some (verifyTxLoop H utxos b.transactions.tail [])

/-!
## Ledger — types/blockchain.rs
-/

/-- Remove a key's binding (`HashMap::remove`). -/
def aremove {α : Type} : List (Nat × α) → Nat → List (Nat × α)
  | [], _ => []
  | (k, v) :: rest, key => if k = key then aremove rest key else (k, v) :: aremove rest key

/-- `HashMap::insert`: replace any existing binding for the key. -/
def ainsert {α : Type} (m : List (Nat × α)) (k : Nat) (v : α) : List (Nat × α) :=
  (k, v) :: aremove m k

/-- `entry(key).and_modify(...)` setting the reservation mark of one UTXO. -/
def setMark (utxos : List (Nat × (Bool × TransactionOutput))) (key : Nat) (mark : Bool) :
    List (Nat × (Bool × TransactionOutput)) :=
  utxos.map (fun (k, p) => if k = key then (k, (mark, p.2)) else (k, p))

/-- Drop the reservation marks, viewing the ledger's UTXO map as the
`HashMap<Hash, TransactionOutput>` expected by the `Block` checkers of
types.rs. (`Blockchain::add_block` of types/blockchain.rs line 104 passes
`&self.utxos` to `Block::verify_transactions`, whose types.rs signature takes
the mark-free map; the mark-aware variant of types.rs that the repository
compiles against is not under `src/`, and on the only reachable paths the
call is dead code, so the stripped view stands in for it.) -/
def stripMarks (utxos : List (Nat × (Bool × TransactionOutput))) :
    List (Nat × TransactionOutput) :=
  utxos.map (fun (k, p) => (k, p.2))

/-- `Blockchain::block_height` (blockchain.rs lines 49-51): the chain length. -/
def Blockchain.block_height (bc : Blockchain) : Nat := bc.blocks.length

/-- `Blockchain::rebuild_utxos` (blockchain.rs lines 54-66): replay every
committed transaction over the *current* `utxos` map (the source does not
clear it first): remove each input's referenced entry, then insert each
output under the owning transaction's hash (later outputs of the same
transaction overwrite earlier ones — one UTXO slot per transaction). -/
def Blockchain.rebuild_utxos (H : HashFn) (bc : Blockchain) : Blockchain :=
  { bc with
    utxos := bc.blocks.foldl (fun u block =>
      block.transactions.foldl (fun u transaction =>
        transaction.outputs.foldl
          (fun u2 output => ainsert u2 (H.txHash transaction) (false, output))
          (transaction.inputs.foldl
            (fun u2 input => aremove u2 input.prev_transaction_output_hash) u))
        u) bc.utxos }

/-- `Blockchain::try_adjust_target` (blockchain.rs lines 118-163). No-op on
an empty chain or off a retarget boundary. At a boundary: take the elapsed
seconds between the header timestamps of the block `DIFFICULTY_UPDATE_INTERVAL`
positions back and the tip, scale the current target by
`elapsed / (IDEAL_BLOCK_TIME * DIFFICULTY_UPDATE_INTERVAL)` truncated toward
zero, clamp to `[target / 4, target * 4]`, and cap at `MIN_TARGET`.
Panic paths modelled as `none`: a negative elapsed span (the truncated
decimal string then starts with a minus sign and `U256::from_str_radix`
fails its `expect`), a zero ideal span (`BigDecimal` division by zero), a
scaled value or a computed `target * 4` that does not fit in a `U256`
(`from_str_radix` overflow, `uint` multiplication overflow). -/
def Blockchain.try_adjust_target (C : Consts) (bc : Blockchain) : Option Blockchain :=
  if bc.blocks = [] then some bc
  else if bc.blocks.length % C.DIFFICULTY_UPDATE_INTERVAL ≠ 0 then some bc
  else
    match bc.blocks.get? (bc.blocks.length - C.DIFFICULTY_UPDATE_INTERVAL),
        bc.blocks.getLast? with
    | some firstBlock, some lastBlock =>
      let time_diff : Int := lastBlock.header.timestamp - firstBlock.header.timestamp
      let target_seconds := C.IDEAL_BLOCK_TIME * C.DIFFICULTY_UPDATE_INTERVAL
      if target_seconds = 0 then none
      else if time_diff < 0 then none
      else
        let scaled := bc.target * time_diff.toNat / target_seconds
        if scaled ≥ 2 ^ 256 then none
        else
          if scaled < bc.target / 4 then
            some { bc with target := min (bc.target / 4) C.MIN_TARGET }
          else if bc.target * 4 ≥ 2 ^ 256 then none
          else if scaled > bc.target * 4 then
            some { bc with target := min (bc.target * 4) C.MIN_TARGET }
          else some { bc with target := min scaled C.MIN_TARGET }
    | _, _ => none

/-- Lines 108-115 of `Blockchain::add_block` (the code after the validation
`if`, reached by every non-erroring path): prune the mempool of the block's
transactions by hash, append the block, run the retarget check. -/
def Blockchain.addBlockCommit (H : HashFn) (C : Consts) (bc : Blockchain) (block : Block) :
    Option (RResult Unit × Blockchain) :=
  let block_transactions := block.transactions.map H.txHash
  let mempool2 := bc.mempool.filter
    (fun tx => ¬ block_transactions.contains (H.txHash tx.2))
  let bc2 := { bc with mempool := mempool2, blocks := bc.blocks ++ [block] }
  match bc2.try_adjust_target C with
  | none => none
  | some bc3 => some (.ok (), bc3)

/-- `Blockchain::add_block` (blockchain.rs lines 68-116), exactly as written:
the entire validation block is nested under `if self.blocks.is_empty()`, so
with a non-empty chain no check runs at all; with an empty chain, a non-zero
`prev_block_hash` is rejected, and otherwise the `else` arm dereferences
`self.blocks.last().unwrap()` on the empty vector and panics (`none`) — the
linkage/PoW/merkle/timestamp/transaction checks that follow it are dead code
(kept here for fidelity). On the surviving path the accepted block's
transactions are pruned from the mempool by hash, the block is appended, and
the retarget check runs. -/
def Blockchain.add_block (H : HashFn) (C : Consts) (bc : Blockchain) (block : Block) :
    Option (RResult Unit × Blockchain) :=
  if bc.blocks = [] then
    if block.header.prev_block_hash ≠ 0 then some (.error .InvalidBlock, bc)
    else
      match bc.blocks.getLast? with
      | none => none
      | some last_block =>
        if block.header.prev_block_hash ≠ H.blockHash last_block then
          some (.error .InvalidBlock, bc)
        else if Hash.matches_target (H.headerHash block.header) block.header.target
            = false then
          some (.error .InvalidBlock, bc)
        else
          match MerkleRoot.calculate H block.transactions with
          | none => none
          | some calculated_merkle_root =>
            if calculated_merkle_root ≠ block.header.merkle_root then
              some (.error .InvalidMerkleRoot, bc)
            else if block.header.timestamp ≤ last_block.header.timestamp then
              some (.error .InvalidBlock, bc)
            else
              match block.verify_transactions H C bc.block_height
                  (stripMarks bc.utxos) with
              | none => none
              | some (.error e) => some (.error e, bc)
              | some (.ok ()) => Blockchain.addBlockCommit H C bc block
  else Blockchain.addBlockCommit H C bc block

/-!
## Mempool — types/blockchain.rs lines 165-298
-/

/-- The validation loop of `Blockchain::add_to_mempool` (blockchain.rs lines
168-180): every input must resolve against a known UTXO and inputs must be
pairwise distinct within the submitted transaction; `seen` is the
`known_inputs` set. Returns the first error, if any. -/
def checkMempoolInputs (utxos : List (Nat × (Bool × TransactionOutput))) :
    List TransactionInput → List Nat → Option SbdError
  | [], _ => none
  | i :: rest, seen =>
    if (alookup utxos i.prev_transaction_output_hash).isNone then some .InvalidTransaction
    else if seen.contains i.prev_transaction_output_hash then some .InvalidTransaction
    else checkMempoolInputs utxos rest (i.prev_transaction_output_hash :: seen)

/-- The `self.mempool.iter().enumerate().find(...)` of blockchain.rs lines
190-199: the first (index, entry) whose transaction has an output hashing to
the disputed UTXO key. -/
def findReferencing (H : HashFn) (mempool : List (Int × Transaction)) (key : Nat) :
    Option (Nat × (Int × Transaction)) :=
  go mempool 0
where
  go : List (Int × Transaction) → Nat → Option (Nat × (Int × Transaction))
    | [], _ => none
    | e :: rest, idx =>
      if e.2.outputs.any (fun output => H.outHash output = key) then some (idx, e)
      else go rest (idx + 1)

/-- Set the reservation mark of every UTXO referenced by a transaction's
inputs to `false` (blockchain.rs lines 202-209 and, for the single disputed
UTXO, lines 215-219). -/
def unmarkInputs (utxos : List (Nat × (Bool × TransactionOutput)))
    (inputs : List TransactionInput) : List (Nat × (Bool × TransactionOutput)) :=
  inputs.foldl (fun u input => setMark u input.prev_transaction_output_hash false) utxos

/-- One iteration of the conflict-handling loop of `Blockchain::add_to_mempool`
(blockchain.rs lines 185-222): when the input's UTXO is marked reserved,
either evict the first pending transaction whose outputs hash to the disputed
key (unmarking every UTXO its inputs reference, then removing it from the
mempool) or, when none exists, unmark just the disputed UTXO. -/
def resolveOne (H : HashFn)
    (st : List (Nat × (Bool × TransactionOutput)) × List (Int × Transaction))
    (input : TransactionInput) :
    List (Nat × (Bool × TransactionOutput)) × List (Int × Transaction) :=
  match alookup st.1 input.prev_transaction_output_hash with
  | some (true, _) =>
    match findReferencing H st.2 input.prev_transaction_output_hash with
    | some (idx, (_, referencing_transaction)) =>
      (unmarkInputs st.1 referencing_transaction.inputs, st.2.eraseIdx idx)
    | none => (setMark st.1 input.prev_transaction_output_hash false, st.2)
  | _ => st

/-- The whole conflict-handling loop, folding `resolveOne` over the submitted
transaction's inputs in order. -/
def resolveConflicts (H : HashFn)
    (st : List (Nat × (Bool × TransactionOutput)) × List (Int × Transaction))
    (inputs : List TransactionInput) :
    List (Nat × (Bool × TransactionOutput)) × List (Int × Transaction) :=
  inputs.foldl (resolveOne H) st

/-- `all_inputs` of blockchain.rs lines 224-234 (and the identical lookup in
the sort key, lines 252-262): sum the referenced outputs' values, `none`
modelling the `expect("BUG: impossible")` panic on a missing UTXO. -/
def inputsValueSum (utxos : List (Nat × (Bool × TransactionOutput))) :
    List TransactionInput → Option Nat
  | [] => some 0
  | i :: rest =>
    match alookup utxos i.prev_transaction_output_hash with
    | none => none
    | some (_, output) =>
      match inputsValueSum utxos rest with
      | none => none
      | some s => some (output.value + s)

/-- Mark every input's referenced UTXO as reserved (blockchain.rs lines
241-247). -/
def markInputs (utxos : List (Nat × (Bool × TransactionOutput)))
    (inputs : List TransactionInput) : List (Nat × (Bool × TransactionOutput)) :=
  inputs.foldl (fun u input => setMark u input.prev_transaction_output_hash true) utxos

/-- Stable insertion of a key-tagged entry into a key-sorted list (an entry
goes after every entry with a key `≤` its own), modelling the stable
`sort_by_key`. -/
def insortByKey {α : Type} (x : Nat × α) : List (Nat × α) → List (Nat × α)
  | [] => [x]
  | y :: rest => if y.1 ≤ x.1 then y :: insortByKey x rest else x :: y :: rest

/-- Stable sort of key-tagged entries ascending by key. -/
def sortKeyed {α : Type} : List (Nat × α) → List (Nat × α)
  | [] => []
  | x :: rest => insortByKey x (sortKeyed rest)

/-- `self.mempool.sort_by_key(...)` of blockchain.rs lines 251-266: the key
of an entry is its miner fee, the unchecked `u64` difference between the
summed looked-up input values and the summed output values; a missing UTXO
in the key computation panics (`none`). Ascending stable sort — lowest fee
first. -/
def sortMempoolByFee (utxos : List (Nat × (Bool × TransactionOutput)))
    (mempool : List (Int × Transaction)) : Option (List (Int × Transaction)) :=
  match keyed mempool with
  | none => none
  | some l => some ((sortKeyed l).map (·.2))
where
  keyed : List (Int × Transaction) → Option (List (Nat × (Int × Transaction)))
    | [] => some []
    | e :: rest =>
      match inputsValueSum utxos e.2.inputs with
      | none => none
      | some allIn =>
        match keyed rest with
        | none => none
        | some l => some ((u64sub allIn (outSum e.2), e) :: l)

/-- `Blockchain::add_to_mempool` (blockchain.rs lines 165-268): validate
inputs (known and pairwise distinct), run the conflict-handling loop, require
summed input value `≥` summed output value — note this check runs *after*
the conflict loop has already mutated the state, so its error return carries
the mutated ledger — then mark the inputs reserved, push `(now, transaction)`
and re-sort the mempool ascending by miner fee. -/
def Blockchain.add_to_mempool (H : HashFn) (now : Int) (bc : Blockchain)
    (transaction : Transaction) : Option (RResult Unit × Blockchain) :=
  match checkMempoolInputs bc.utxos transaction.inputs [] with
  | some e => some (.error e, bc)
  | none =>
    let st := resolveConflicts H (bc.utxos, bc.mempool) transaction.inputs
    match inputsValueSum st.1 transaction.inputs with
    | none => none
    | some all_inputs =>
      if all_inputs < outSum transaction then
        some (.error .InvalidTransaction, { bc with utxos := st.1, mempool := st.2 })
      else
        let utxos2 := markInputs st.1 transaction.inputs
        let mempool2 := st.2 ++ [(now, transaction)]
        match sortMempoolByFee utxos2 mempool2 with
        | none => none
        | some mempool3 =>
          some (.ok (), { bc with utxos := utxos2, mempool := mempool3 })

/-- `Blockchain::cleanup_mempool` (blockchain.rs lines 272-298): drop every
entry older than `MAX_MEMPOOL_TRANSACTION_AGE` seconds and unmark every UTXO
referenced by a dropped transaction's inputs. -/
def Blockchain.cleanup_mempool (C : Consts) (now : Int) (bc : Blockchain) : Blockchain :=
  let expired := bc.mempool.filter
    (fun e => now - e.1 > (C.MAX_MEMPOOL_TRANSACTION_AGE : Int))
  let kept := bc.mempool.filter
    (fun e => ¬ (now - e.1 > (C.MAX_MEMPOOL_TRANSACTION_AGE : Int)))
  { bc with
    mempool := kept,
    utxos := expired.foldl (fun u e => unmarkInputs u e.2.inputs) bc.utxos }

/-!
## Concrete fixtures for evaluated counterexamples and witnesses

A concrete instantiation of the abstract hash collaborator: transaction /
header / block / pair digests are constant `0`, an output's digest is its
`unique_id`, and every signature verifies. The code-path facts below do not
depend on which digest function the collaborator implements, so any concrete
choice exhibits them.
-/

def cHash : HashFn where
  txHash := fun _ => 0
  outHash := fun o => o.unique_id
  headerHash := fun _ => 0
  blockHash := fun _ => 0
  pairHash := fun _ _ => 0
  sigVerify := fun _ _ _ => true

/-- Concrete constants for the evaluated facts (the crate root with the real
values is not under `src/`; the claim theorems quantify over all values, the
fixtures just pick some). -/
def cConsts : Consts where
  INITIAL_REWARD := 50
  HALVING_INTERVAL := 210000
  DIFFICULTY_UPDATE_INTERVAL := 50
  IDEAL_BLOCK_TIME := 10
  MIN_TARGET := 1000000
  MAX_MEMPOOL_TRANSACTION_AGE := 600

def cOut1 : TransactionOutput := ⟨5, 1, 1⟩

def cOut2 : TransactionOutput := ⟨7, 2, 2⟩

/-- A committed first block: one coinbase-shaped transaction. -/
def cBlock0 : Block := ⟨⟨0, 0, 0, 0, 10⟩, [⟨[], [cOut1]⟩]⟩

/-- A one-block chain whose UTXO set resolves key `100` to `cOut1`. -/
def cChain1 : Blockchain := ⟨[cBlock0], 100, [(100, (false, cOut1))], []⟩

/-- A candidate violating every non-genesis rule at once: its
`prev_block_hash` (`999`) is not the tip's hash, its timestamp (`-5`) is not
after the tip's (`0`), its stated merkle root (`77`) is not the root of its
(empty!) transaction list, and it carries no transactions at all. -/
def cBadBlock : Block := ⟨⟨-5, 0, 999, 77, 10⟩, []⟩

def cEmptyChain : Blockchain := ⟨[], 100, [], []⟩

/-- A well-formed genesis candidate: `prev_block_hash = Hash::zero()`. -/
def cGenesis : Block := ⟨⟨1, 0, 0, 0, 1000⟩, [⟨[], [cOut1]⟩]⟩

/-- A first-block candidate with a non-zero `prev_block_hash` (`7`). -/
def cBadGenesis : Block := ⟨⟨1, 0, 7, 0, 1000⟩, [⟨[], [cOut1]⟩]⟩

/-- A transaction spending the UTXO at key `100` (worth 5) into a 3-valued
output — a 2-unit miner fee. -/
def cSpendTx : Transaction := ⟨[⟨100, 0⟩], [⟨3, 9, 2⟩]⟩

/-- The height-1 coinbase: under `cConsts` the reward is `50 × 10^8` and
`cSpendTx` pays a fee of 2, so the single output carries `5000000002`. -/
def cCoinbase1 : Transaction := ⟨[], [⟨5000000002, 4, 1⟩]⟩

/-- A fully valid successor of `cBlock0` under `cHash`/`cConsts`: linkage
(`prev = cHash.blockHash cBlock0 = 0`), proof of work (`0 ≤ 10`), merkle root
(both transactions hash to `0`, the paired root is `0`), a later timestamp,
and transactions verifying at height 1 against `cChain1`'s UTXOs. -/
def cBlock2 : Block := ⟨⟨5, 0, 0, 0, 10⟩, [cCoinbase1, cSpendTx]⟩

def cChain2 : Blockchain := { cChain1 with blocks := [cBlock0, cBlock2] }

/-- A pending transaction whose output hashes (under `cHash`) to the disputed
UTXO key `100` and whose own input references key `200`. -/
def cPendingTx : Transaction := ⟨[⟨200, 0⟩], [⟨5, 100, 9⟩]⟩

/-- A ledger whose UTXO at key `100` is reserved by `cPendingTx`. -/
def cChainM : Blockchain :=
  ⟨[], 100, [(100, (true, cOut1)), (200, (false, cOut2))], [(0, cPendingTx)]⟩

/-- A conflicting submission: spends the reserved key `100` (worth 5) but
outputs 99, so it fails the value check — after the conflict loop has
already evicted `cPendingTx`. -/
def cConflictTx : Transaction := ⟨[⟨100, 0⟩], [⟨99, 3, 3⟩]⟩

/-!
## Claims C1-C4 — `Blockchain::add_block` / `add_to_mempool` divergences
-/

/-- **C1** (code bug, demonstrated): with a non-empty chain, `add_block` runs
none of the claimed checks — the whole validation block is nested inside the
`if self.blocks.is_empty()` branch — so a candidate violating the linkage,
timestamp and merkle rules all at once is still accepted and appended, with
`Ok` returned and the ledger otherwise untouched. -/
theorem addBlock_skips_all_checks_on_nonempty_chain :
    Blockchain.add_block cHash cConsts cChain1 cBadBlock
      = some (.ok (), { cChain1 with blocks := [cBlock0, cBadBlock] })
    ∧ cBadBlock.header.prev_block_hash ≠ cHash.blockHash cBlock0
    ∧ cBadBlock.header.timestamp ≤ cBlock0.header.timestamp
    ∧ cBadBlock.transactions = [] := by
  decide

/-- **C2** (code bug, demonstrated): on an empty chain a genesis candidate
with `prev_block_hash = Hash::zero()` is *not* accepted — the `else` arm
immediately evaluates `self.blocks.last().unwrap()` on the empty vector and
panics (modelled `none`) — while the non-zero case behaves as claimed,
returning `InvalidBlock` and appending nothing. -/
theorem addBlock_panics_on_genesis :
    Blockchain.add_block cHash cConsts cEmptyChain cGenesis = none
    ∧ Blockchain.add_block cHash cConsts cEmptyChain cBadGenesis
      = some (.error .InvalidBlock, cEmptyChain) := by
  decide

/-- **C3** (code bug, demonstrated): `add_block` never touches the UTXO set.
`cBlock2` is a fully valid successor (its transactions verify at height 1,
its merkle root, linkage, PoW and timestamp are all correct), yet after the
accepting call the UTXO entry spent by `cSpendTx` (key `100`) is still
present and no entry keyed by `cSpendTx`'s transaction hash exists. -/
theorem addBlock_leaves_utxos_unchanged :
    Blockchain.add_block cHash cConsts cChain1 cBlock2 = some (.ok (), cChain2)
    ∧ Block.verify_transactions cHash cConsts cBlock2 1 (stripMarks cChain1.utxos)
      = some (.ok ())
    ∧ MerkleRoot.calculate cHash cBlock2.transactions = some cBlock2.header.merkle_root
    ∧ cBlock2.header.prev_block_hash = cHash.blockHash cBlock0
    ∧ cBlock0.header.timestamp < cBlock2.header.timestamp
    ∧ Hash.matches_target (cHash.headerHash cBlock2.header) cBlock2.header.target = true
    ∧ cChain2.utxos = cChain1.utxos
    ∧ alookup cChain2.utxos 100 = some (false, cOut1)
    ∧ alookup cChain2.utxos (cHash.txHash cSpendTx) = none := by
  refine ⟨by decide, by decide, ?_, by decide, by decide, by decide, by decide,
    by decide, by decide⟩
  simp [MerkleRoot.calculate, merkleLoop, hashPairs, cHash, cBlock2, cCoinbase1, cSpendTx]

/-- **C4** (code bug, demonstrated): `add_to_mempool` mutates the ledger
before its value check. Submitting `cConflictTx` (which spends a UTXO
reserved by the pending `cPendingTx` but fails the input-≥-output check)
returns `InvalidTransaction`, yet the returned ledger has lost the evicted
`cPendingTx` from its mempool — the state is not the pre-call state. -/
theorem addToMempool_mutates_state_on_error :
    Blockchain.add_to_mempool cHash 50 cChainM cConflictTx
      = some (.error .InvalidTransaction, { cChainM with mempool := [] })
    ∧ ({ cChainM with mempool := [] } : Blockchain) ≠ cChainM := by
  decide

/-!
## Claim C5 — `Block::verify_coinbase_transaction`
-/

/-- A coinbase for the 64th halving era: no inputs, one 2-valued output —
exactly the fees of `cSpendTx` plus the era's zero reward. -/
def cCoinbase64 : Transaction := ⟨[], [⟨2, 40, 1⟩]⟩

def cBlock64 : Block := ⟨⟨5, 0, 0, 0, 10⟩, [cCoinbase64, cSpendTx]⟩

/-- **C5** counterexample to the claim as stated, which quantifies over
every claimed height: at 64 halving intervals (height
`64 × HALVING_INTERVAL = 13440000` under the fixture constants) the source
panics at `2u64.pow(64)` — overflow abort in debug; in release the power
wraps to zero and the reward division panics on divide by zero — so the
call does not succeed (`none`), even though every condition on the claim's
right-hand side holds: the first transaction has zero inputs and one
output, `calculate_miner_fees` returns 2, and the coinbase output sum
equals `INITIAL_REWARD * 10^8 / 2^64 + 2 = 0 + 2`. -/
theorem verify_coinbase_panics_at_halving_64 :
    cBlock64.verify_coinbase_transaction cHash cConsts 13440000
      (stripMarks cChain1.utxos) = none
    ∧ cBlock64.transactions.head? = some cCoinbase64
    ∧ cCoinbase64.inputs = []
    ∧ cCoinbase64.outputs ≠ []
    ∧ cBlock64.calculate_miner_fees cHash (stripMarks cChain1.utxos) = .ok 2
    ∧ outSum cCoinbase64
      = cConsts.INITIAL_REWARD * 10 ^ 8
        / 2 ^ (13440000 / cConsts.HALVING_INTERVAL) + 2 := by
  decide

/-- **C5** as amended (restricted to the domain where the program completes
rather than panicking): with a first transaction present (an empty block
panics at `transactions[0]`), a nonzero `HALVING_INTERVAL` (the height
division panics otherwise) and a halving exponent `h / HALVING_INTERVAL`
below 64 (at 64 or more the `u64` power panics in both build modes —
`verify_coinbase_panics_at_halving_64`), `verify_coinbase_transaction`
succeeds iff the first transaction has zero inputs, at least one output,
and output sum exactly `block_reward + miner_fees`, with
`block_reward = INITIAL_REWARD * 10^8 / 2^(h / HALVING_INTERVAL)` and
`miner_fees` the value returned by `calculate_miner_fees`; and a sum
mismatch in either direction (fees having been computed) yields
`InvalidTransaction`. -/
theorem verify_coinbase_ok_iff (H : HashFn) (C : Consts) (b : Block)
    (h : Nat) (utxos : List (Nat × TransactionOutput)) (cb : Transaction)
    (hhead : b.transactions.head? = some cb)
    (hhi : 0 < C.HALVING_INTERVAL)
    (hexp : h / C.HALVING_INTERVAL < 64) :
    (b.verify_coinbase_transaction H C h utxos = some (.ok ()) ↔
      (cb.inputs = [] ∧ cb.outputs ≠ [] ∧
        ∃ fees, b.calculate_miner_fees H utxos = .ok fees ∧
          outSum cb = C.INITIAL_REWARD * 10 ^ 8 / 2 ^ (h / C.HALVING_INTERVAL) + fees))
    ∧ (∀ fees, cb.inputs = [] → cb.outputs ≠ [] →
        b.calculate_miner_fees H utxos = .ok fees →
        outSum cb ≠ C.INITIAL_REWARD * 10 ^ 8 / 2 ^ (h / C.HALVING_INTERVAL) + fees →
        b.verify_coinbase_transaction H C h utxos = some (.error .InvalidTransaction)) := by
  have e2 : h / C.HALVING_INTERVAL % 2 ^ 32 = h / C.HALVING_INTERVAL :=
    Nat.mod_eq_of_lt (lt_trans hexp (by norm_num))
  have hne : ¬ C.HALVING_INTERVAL = 0 := Nat.pos_iff_ne_zero.mp hhi
  have hnexp : ¬ 64 ≤ h / C.HALVING_INTERVAL % 2 ^ 32 := by
    rw [e2]
    omega
  constructor
  · simp only [Block.verify_coinbase_transaction, hhead]
    by_cases h1 : cb.inputs.length ≠ 0
    · rw [if_pos h1]
      constructor
      · intro hcon
        simp at hcon
      · rintro ⟨hin, -⟩
        rw [hin] at h1
        simp at h1
    · rw [if_neg h1]
      by_cases h2 : cb.outputs.length = 0
      · rw [if_pos h2]
        constructor
        · intro hcon
          simp at hcon
        · rintro ⟨-, hout, -⟩
          rw [List.length_eq_zero] at h2
          exact absurd h2 hout
      · rw [if_neg h2]
        rcases hfees : b.calculate_miner_fees H utxos with fees | e
        · simp only []
          rw [if_neg hne, if_neg hnexp]
          simp only [e2]
          by_cases h3 : outSum cb
              ≠ C.INITIAL_REWARD * 10 ^ 8 / 2 ^ (h / C.HALVING_INTERVAL) + fees
          · rw [if_pos h3]
            constructor
            · intro hcon
              simp at hcon
            · rintro ⟨-, -, fees2, hf2, hsum⟩
              cases hf2
              exact absurd hsum h3
          · rw [if_neg h3]
            constructor
            · intro _
              refine ⟨by simpa [List.length_eq_zero] using h1, ?_, fees, rfl,
                by simpa using h3⟩
              intro hcon
              rw [hcon] at h2
              exact h2 rfl
            · intro _
              rfl
        · simp only []
          constructor
          · intro hcon
            simp at hcon
          · rintro ⟨-, -, fees2, hf2, -⟩
            exact RResult.noConfusion hf2
  · intro fees h1 h2 hfees hsum
    simp only [Block.verify_coinbase_transaction, hhead, hfees]
    rw [if_neg (by simp [h1]), if_neg (by simpa [List.length_eq_zero] using h2)]
    rw [if_neg hne, if_neg hnexp]
    simp only [e2]
    rw [if_pos hsum]

/-- Closed witness for the amended C5 at `cBlock2`, height 1: hypotheses
hold and the theorem applies. -/
theorem verify_coinbase_ok_iff_witness :
    cBlock2.transactions.head? = some cCoinbase1 ∧
    0 < cConsts.HALVING_INTERVAL ∧
    1 / cConsts.HALVING_INTERVAL < 64 ∧
    ((cBlock2.verify_coinbase_transaction cHash cConsts 1 (stripMarks cChain1.utxos)
        = some (.ok ()) ↔
      (cCoinbase1.inputs = [] ∧ cCoinbase1.outputs ≠ [] ∧
        ∃ fees,
          cBlock2.calculate_miner_fees cHash (stripMarks cChain1.utxos) = .ok fees ∧
          outSum cCoinbase1 = cConsts.INITIAL_REWARD * 10 ^ 8 /
            2 ^ (1 / cConsts.HALVING_INTERVAL) + fees))
    ∧ (∀ fees, cCoinbase1.inputs = [] → cCoinbase1.outputs ≠ [] →
        cBlock2.calculate_miner_fees cHash (stripMarks cChain1.utxos) = .ok fees →
        outSum cCoinbase1 ≠ cConsts.INITIAL_REWARD * 10 ^ 8 /
          2 ^ (1 / cConsts.HALVING_INTERVAL) + fees →
        cBlock2.verify_coinbase_transaction cHash cConsts 1 (stripMarks cChain1.utxos)
          = some (.error .InvalidTransaction))) :=
  ⟨by decide, by decide, by decide,
    verify_coinbase_ok_iff cHash cConsts cBlock2 1 (stripMarks cChain1.utxos)
      cCoinbase1 (by decide) (by decide) (by decide)⟩

/-!
## Claim C6 — `Block::verify_transactions`
-/

theorem alookup_cons {α : Type} (k : Nat) (v : α) (m : List (Nat × α)) (key : Nat) :
    alookup ((k, v) :: m) key = if k = key then some v else alookup m key := rfl

theorem alookup_cons_eq_none {α : Type} {k key : Nat} {v : α} {m : List (Nat × α)} :
    alookup ((k, v) :: m) key = none ↔ k ≠ key ∧ alookup m key = none := by
  rw [alookup_cons]
  split_ifs with h
  · simp [h]
  · simp [h]

/-- All previous-output hashes referenced by the inputs of a transaction
list, in traversal order. -/
def prevsOf (txs : List Transaction) : List Nat :=
  txs.flatMap (fun t => t.inputs.map (·.prev_transaction_output_hash))

/-- Spec-side input-value sum of a list of inputs against a UTXO view
(missing references count 0; the predicates below always pair it with a
presence condition). -/
def specInSum (utxos : List (Nat × TransactionOutput)) (inputs : List TransactionInput) :
    Nat :=
  (inputs.map
    (fun i => ((alookup utxos i.prev_transaction_output_hash).map (·.value)).getD 0)).sum

theorem specInSum_nil (utxos : List (Nat × TransactionOutput)) :
    specInSum utxos [] = 0 := rfl

theorem specInSum_cons (utxos : List (Nat × TransactionOutput)) (i : TransactionInput)
    (rest : List TransactionInput) :
    specInSum utxos (i :: rest)
      = ((alookup utxos i.prev_transaction_output_hash).map (·.value)).getD 0
        + specInSum utxos rest := by
  simp [specInSum]

/-- The claim's per-transaction conditions for a non-coinbase transaction:
every input resolves in the confirmed UTXO set with a verifying signature
over the referenced output hash against the referenced output's public key,
and the summed input value covers the summed output value. -/
def GoodTx (H : HashFn) (utxos : List (Nat × TransactionOutput)) (tx : Transaction) :
    Prop :=
  (∀ i ∈ tx.inputs, ∃ o, alookup utxos i.prev_transaction_output_hash = some o ∧
    H.sigVerify i.signature i.prev_transaction_output_hash o.pubkey = true)
  ∧ outSum tx ≤ specInSum utxos tx.inputs

theorem txCheckInputs_ok_iff (H : HashFn) (utxos : List (Nat × TransactionOutput)) :
    ∀ (inputs : List TransactionInput) (v : Nat) (acc : List (Nat × TransactionOutput)),
    (∃ r, txCheckInputs H utxos inputs v acc = .ok r) ↔
      ((inputs.map (·.prev_transaction_output_hash)).Nodup ∧
       (∀ i ∈ inputs, alookup acc i.prev_transaction_output_hash = none) ∧
       (∀ i ∈ inputs, ∃ o, alookup utxos i.prev_transaction_output_hash = some o ∧
         H.sigVerify i.signature i.prev_transaction_output_hash o.pubkey = true))
  | [], v, acc => by simp [txCheckInputs]
  | i :: rest, v, acc => by
    simp only [txCheckInputs]
    rcases hu : alookup utxos i.prev_transaction_output_hash with _ | o
    · constructor
      · rintro ⟨r, hr⟩
        exact RResult.noConfusion hr
      · rintro ⟨-, -, hpres⟩
        obtain ⟨o, ho, -⟩ := hpres i (by simp)
        rw [hu] at ho
        exact Option.noConfusion ho
    · simp only []
      by_cases hacc : (alookup acc i.prev_transaction_output_hash).isSome
      · rw [if_pos hacc]
        constructor
        · rintro ⟨r, hr⟩
          exact RResult.noConfusion hr
        · rintro ⟨-, hfresh, -⟩
          rw [hfresh i (by simp)] at hacc
          simp at hacc
      · rw [if_neg hacc]
        by_cases hsig : H.sigVerify i.signature i.prev_transaction_output_hash o.pubkey
            = false
        · rw [if_pos hsig]
          constructor
          · rintro ⟨r, hr⟩
            exact RResult.noConfusion hr
          · rintro ⟨-, -, hpres⟩
            obtain ⟨o2, ho2, hs2⟩ := hpres i (by simp)
            rw [hu] at ho2
            cases ho2
            rw [hs2] at hsig
            exact Bool.noConfusion hsig
        · rw [if_neg hsig]
          rw [txCheckInputs_ok_iff H utxos rest (v + o.value)
            ((i.prev_transaction_output_hash, o) :: acc)]
          have haccnone : alookup acc i.prev_transaction_output_hash = none :=
            Option.not_isSome_iff_eq_none.mp hacc
          constructor
          · rintro ⟨hnd, hfresh, hpres⟩
            refine ⟨?_, ?_, ?_⟩
            · simp only [List.map_cons, List.nodup_cons]
              refine ⟨?_, hnd⟩
              intro hmem
              obtain ⟨j, hj, hjp⟩ := List.mem_map.mp hmem
              have := hfresh j hj
              rw [hjp, alookup_cons_eq_none] at this
              exact this.1 rfl
            · intro j hj
              rcases List.mem_cons.mp hj with rfl | hj
              · exact haccnone
              · exact ((alookup_cons_eq_none).mp (hfresh j hj)).2
            · intro j hj
              rcases List.mem_cons.mp hj with rfl | hj
              · exact ⟨o, hu, eq_true_of_ne_false hsig⟩
              · exact hpres j hj
          · rintro ⟨hnd, hfresh, hpres⟩
            simp only [List.map_cons, List.nodup_cons] at hnd
            refine ⟨hnd.2, ?_, fun j hj => hpres j (List.mem_cons_of_mem i hj)⟩
            intro j hj
            rw [alookup_cons_eq_none]
            refine ⟨?_, hfresh j (List.mem_cons_of_mem i hj)⟩
            intro heq
            exact hnd.1 (heq ▸ List.mem_map.mpr ⟨j, hj, rfl⟩)

theorem txCheckInputs_ok_val (H : HashFn) (utxos : List (Nat × TransactionOutput)) :
    ∀ (inputs : List TransactionInput) (v : Nat) (acc : List (Nat × TransactionOutput))
      (v2 : Nat) (acc2 : List (Nat × TransactionOutput)),
    txCheckInputs H utxos inputs v acc = .ok (v2, acc2) →
    v2 = v + specInSum utxos inputs ∧
    (∀ k, alookup acc2 k = none ↔
      (k ∉ inputs.map (·.prev_transaction_output_hash) ∧ alookup acc k = none))
  | [], v, acc, v2, acc2 => by
    simp only [txCheckInputs, RResult.ok.injEq, Prod.mk.injEq, specInSum_nil]
    rintro ⟨rfl, rfl⟩
    simp
  | i :: rest, v, acc, v2, acc2 => by
    simp only [txCheckInputs]
    rcases hu : alookup utxos i.prev_transaction_output_hash with _ | o
    · intro hr
      exact RResult.noConfusion hr
    · simp only []
      by_cases hacc : (alookup acc i.prev_transaction_output_hash).isSome
      · rw [if_pos hacc]
        intro hr
        exact RResult.noConfusion hr
      · rw [if_neg hacc]
        by_cases hsig : H.sigVerify i.signature i.prev_transaction_output_hash o.pubkey
            = false
        · rw [if_pos hsig]
          intro hr
          exact RResult.noConfusion hr
        · rw [if_neg hsig]
          intro hr
          obtain ⟨hv, hchar⟩ := txCheckInputs_ok_val H utxos rest (v + o.value)
            ((i.prev_transaction_output_hash, o) :: acc) v2 acc2 hr
          constructor
          · rw [hv, specInSum_cons, hu]
            show v + o.value + specInSum utxos rest
              = v + (o.value + specInSum utxos rest)
            omega
          · intro k
            rw [hchar k, alookup_cons_eq_none]
            simp only [List.map_cons, List.mem_cons]
            constructor
            · rintro ⟨hk1, hk2, hk3⟩
              exact ⟨fun hor => hor.elim (fun he => hk2 he.symm) hk1, hk3⟩
            · rintro ⟨hk1, hk2⟩
              exact ⟨fun hm => hk1 (Or.inr hm), fun he => hk1 (Or.inl he.symm), hk2⟩

theorem txCheckInputs_sig_error (H : HashFn) (utxos : List (Nat × TransactionOutput)) :
    ∀ (inputs : List TransactionInput) (v : Nat) (acc : List (Nat × TransactionOutput)),
    txCheckInputs H utxos inputs v acc = .error .InvalidSignature →
    ∃ i ∈ inputs, ∃ o, alookup utxos i.prev_transaction_output_hash = some o ∧
      H.sigVerify i.signature i.prev_transaction_output_hash o.pubkey = false
  | [], v, acc => by
    intro hr
    exact RResult.noConfusion hr
  | i :: rest, v, acc => by
    simp only [txCheckInputs]
    rcases hu : alookup utxos i.prev_transaction_output_hash with _ | o
    · intro hr
      cases hr
    · simp only []
      by_cases hacc : (alookup acc i.prev_transaction_output_hash).isSome
      · rw [if_pos hacc]
        intro hr
        cases hr
      · rw [if_neg hacc]
        by_cases hsig : H.sigVerify i.signature i.prev_transaction_output_hash o.pubkey
            = false
        · intro _
          exact ⟨i, by simp, o, hu, hsig⟩
        · rw [if_neg hsig]
          intro hr
          obtain ⟨j, hj, o2, ho2, hs2⟩ := txCheckInputs_sig_error H utxos rest
            (v + o.value) ((i.prev_transaction_output_hash, o) :: acc) hr
          exact ⟨j, List.mem_cons_of_mem i hj, o2, ho2, hs2⟩

theorem prevsOf_cons (tx : Transaction) (rest : List Transaction) :
    prevsOf (tx :: rest)
      = tx.inputs.map (·.prev_transaction_output_hash) ++ prevsOf rest := by
  simp [prevsOf]

theorem verifyTxLoop_ok_iff (H : HashFn) (utxos : List (Nat × TransactionOutput)) :
    ∀ (txs : List Transaction) (acc : List (Nat × TransactionOutput)),
    verifyTxLoop H utxos txs acc = .ok () ↔
      ((prevsOf txs).Nodup ∧ (∀ k ∈ prevsOf txs, alookup acc k = none) ∧
       ∀ tx ∈ txs, GoodTx H utxos tx)
  | [], acc => by simp [verifyTxLoop, prevsOf]
  | tx :: rest, acc => by
    simp only [verifyTxLoop]
    cases hchk : txCheckInputs H utxos tx.inputs 0 acc with
    | error e =>
      simp only []
      constructor
      · intro h
        exact RResult.noConfusion h
      · rintro ⟨hnd, hfresh, hgood⟩
        have hex : ∃ r, txCheckInputs H utxos tx.inputs 0 acc = .ok r := by
          rw [txCheckInputs_ok_iff]
          refine ⟨?_, ?_, (hgood tx (by simp)).1⟩
          · rw [prevsOf_cons, List.nodup_append] at hnd
            exact hnd.1
          · intro i hi
            exact hfresh _ (by
              rw [prevsOf_cons]
              exact List.mem_append_left _ (List.mem_map.mpr ⟨i, hi, rfl⟩))
        obtain ⟨r, hr⟩ := hex
        rw [hchk] at hr
        exact RResult.noConfusion hr
    | ok r =>
      obtain ⟨v, acc2⟩ := r
      simp only []
      obtain ⟨hv, hchar⟩ := txCheckInputs_ok_val H utxos tx.inputs 0 acc v acc2 hchk
      obtain ⟨hnd1, hfr1, hpres1⟩ :=
        (txCheckInputs_ok_iff H utxos tx.inputs 0 acc).mp ⟨(v, acc2), hchk⟩
      by_cases hval : v < outSum tx
      · rw [if_pos hval]
        constructor
        · intro h
          exact RResult.noConfusion h
        · rintro ⟨-, -, hgood⟩
          have hle := (hgood tx (by simp)).2
          omega
      · rw [if_neg hval]
        rw [verifyTxLoop_ok_iff H utxos rest acc2]
        constructor
        · rintro ⟨hnd2, hfr2, hgood2⟩
          refine ⟨?_, ?_, ?_⟩
          · rw [prevsOf_cons, List.nodup_append]
            refine ⟨hnd1, hnd2, ?_⟩
            intro k hk1 hk2
            exact ((hchar k).mp (hfr2 k hk2)).1 hk1
          · intro k hk
            rcases List.mem_append.mp (by rwa [prevsOf_cons] at hk) with hk | hk
            · obtain ⟨i, hi, rfl⟩ := List.mem_map.mp hk
              exact hfr1 i hi
            · exact ((hchar k).mp (hfr2 k hk)).2
          · intro t ht
            rcases List.mem_cons.mp ht with rfl | ht
            · exact ⟨hpres1, by omega⟩
            · exact hgood2 t ht
        · rintro ⟨hnd, hfresh, hgood⟩
          rw [prevsOf_cons, List.nodup_append] at hnd
          refine ⟨hnd.2.1, ?_, fun t ht => hgood t (List.mem_cons_of_mem tx ht)⟩
          intro k hk
          refine (hchar k).mpr ⟨?_, hfresh k (by
            rw [prevsOf_cons]
            exact List.mem_append_right _ hk)⟩
          intro hk1
          exact hnd.2.2 hk1 hk

theorem txCheckInputs_error_kinds (H : HashFn) (utxos : List (Nat × TransactionOutput)) :
    ∀ (inputs : List TransactionInput) (v : Nat) (acc : List (Nat × TransactionOutput))
      (e : SbdError),
    txCheckInputs H utxos inputs v acc = .error e →
    e = .InvalidTransaction ∨ e = .InvalidSignature
  | [], v, acc, e => by
    intro hr
    exact RResult.noConfusion hr
  | i :: rest, v, acc, e => by
    simp only [txCheckInputs]
    rcases hu : alookup utxos i.prev_transaction_output_hash with _ | o
    · intro hr
      cases hr
      exact Or.inl rfl
    · simp only []
      by_cases hacc : (alookup acc i.prev_transaction_output_hash).isSome
      · rw [if_pos hacc]
        intro hr
        cases hr
        exact Or.inl rfl
      · rw [if_neg hacc]
        by_cases hsig : H.sigVerify i.signature i.prev_transaction_output_hash o.pubkey
            = false
        · rw [if_pos hsig]
          intro hr
          cases hr
          exact Or.inr rfl
        · rw [if_neg hsig]
          exact txCheckInputs_error_kinds H utxos rest (v + o.value)
            ((i.prev_transaction_output_hash, o) :: acc) e

theorem verifyTxLoop_sig_error (H : HashFn) (utxos : List (Nat × TransactionOutput)) :
    ∀ (txs : List Transaction) (acc : List (Nat × TransactionOutput)),
    verifyTxLoop H utxos txs acc = .error .InvalidSignature →
    ∃ tx ∈ txs, ∃ i ∈ tx.inputs, ∃ o,
      alookup utxos i.prev_transaction_output_hash = some o ∧
      H.sigVerify i.signature i.prev_transaction_output_hash o.pubkey = false
  | [], acc => by
    intro hr
    exact RResult.noConfusion hr
  | tx :: rest, acc => by
    simp only [verifyTxLoop]
    cases hchk : txCheckInputs H utxos tx.inputs 0 acc with
    | error e =>
      simp only []
      intro hr
      have he : e = .InvalidSignature := by
        cases hr
        rfl
      rw [he] at hchk
      obtain ⟨i, hi, o, ho, hs⟩ := txCheckInputs_sig_error H utxos tx.inputs 0 acc hchk
      exact ⟨tx, by simp, i, hi, o, ho, hs⟩
    | ok r =>
      obtain ⟨v, acc2⟩ := r
      simp only []
      by_cases hval : v < outSum tx
      · rw [if_pos hval]
        intro hr
        cases hr
      · rw [if_neg hval]
        intro hr
        obtain ⟨t, ht, i, hi, o, ho, hs⟩ := verifyTxLoop_sig_error H utxos rest acc2 hr
        exact ⟨t, List.mem_cons_of_mem tx ht, i, hi, o, ho, hs⟩

theorem verifyTxLoop_error_kinds (H : HashFn) (utxos : List (Nat × TransactionOutput)) :
    ∀ (txs : List Transaction) (acc : List (Nat × TransactionOutput)) (e : SbdError),
    verifyTxLoop H utxos txs acc = .error e →
    e = .InvalidTransaction ∨ e = .InvalidSignature
  | [], acc, e => by
    intro hr
    exact RResult.noConfusion hr
  | tx :: rest, acc, e => by
    simp only [verifyTxLoop]
    cases hchk : txCheckInputs H utxos tx.inputs 0 acc with
    | error e2 =>
      simp only []
      intro hr
      have : e2 = e := by
        cases hr
        rfl
      rw [this] at hchk
      exact txCheckInputs_error_kinds H utxos tx.inputs 0 acc e hchk
    | ok r =>
      obtain ⟨v, acc2⟩ := r
      simp only []
      by_cases hval : v < outSum tx
      · rw [if_pos hval]
        intro hr
        cases hr
        exact Or.inl rfl
      · rw [if_neg hval]
        exact verifyTxLoop_error_kinds H utxos rest acc2 e

theorem feeInsLoop_error_kind (utxos : List (Nat × TransactionOutput)) :
    ∀ (inputs : List TransactionInput) (acc : List (Nat × TransactionOutput)) (e : SbdError),
    feeInsLoop utxos inputs acc = .error e → e = .InvalidTransaction
  | [], acc, e => by
    intro hr
    exact RResult.noConfusion hr
  | i :: rest, acc, e => by
    simp only [feeInsLoop]
    rcases alookup utxos i.prev_transaction_output_hash with _ | o
    · intro hr
      cases hr
      rfl
    · simp only []
      by_cases hacc : (alookup acc i.prev_transaction_output_hash).isSome
      · rw [if_pos hacc]
        intro hr
        cases hr
        rfl
      · rw [if_neg hacc]
        exact feeInsLoop_error_kind utxos rest
          ((i.prev_transaction_output_hash, o) :: acc) e

theorem feeOutsLoop_error_kind (H : HashFn) :
    ∀ (outputs : List TransactionOutput) (acc : List (Nat × TransactionOutput))
      (e : SbdError),
    feeOutsLoop H outputs acc = .error e → e = .InvalidTransaction
  | [], acc, e => by
    intro hr
    exact RResult.noConfusion hr
  | o :: rest, acc, e => by
    simp only [feeOutsLoop]
    by_cases hacc : (alookup acc (H.outHash o)).isSome
    · rw [if_pos hacc]
      intro hr
      cases hr
      rfl
    · rw [if_neg hacc]
      exact feeOutsLoop_error_kind H rest ((H.outHash o, o) :: acc) e

theorem feeTxLoop_error_kind (H : HashFn) (utxos : List (Nat × TransactionOutput)) :
    ∀ (txs : List Transaction) (ins outs : List (Nat × TransactionOutput)) (e : SbdError),
    feeTxLoop H utxos txs ins outs = .error e → e = .InvalidTransaction
  | [], ins, outs, e => by
    intro hr
    exact RResult.noConfusion hr
  | tx :: rest, ins, outs, e => by
    simp only [feeTxLoop]
    cases hins : feeInsLoop utxos tx.inputs ins with
    | error e2 =>
      simp only []
      intro hr
      have : e2 = e := by
        cases hr
        rfl
      exact this ▸ feeInsLoop_error_kind utxos tx.inputs ins e2 hins
    | ok ins2 =>
      simp only []
      cases houts : feeOutsLoop H tx.outputs outs with
      | error e2 =>
        simp only []
        intro hr
        have : e2 = e := by
          cases hr
          rfl
        exact this ▸ feeOutsLoop_error_kind H tx.outputs outs e2 houts
      | ok outs2 =>
        simp only []
        exact feeTxLoop_error_kind H utxos rest ins2 outs2 e

theorem calculate_miner_fees_error_kind (H : HashFn) (b : Block)
    (utxos : List (Nat × TransactionOutput)) (e : SbdError)
    (hr : b.calculate_miner_fees H utxos = .error e) : e = .InvalidTransaction := by
  rw [Block.calculate_miner_fees] at hr
  cases hfee : feeTxLoop H utxos b.transactions.tail [] [] with
  | error e2 =>
    rw [hfee] at hr
    simp only [] at hr
    have : e2 = e := by
      cases hr
      rfl
    exact this ▸ feeTxLoop_error_kind H utxos b.transactions.tail [] [] e2 hfee
  | ok p =>
    rw [hfee] at hr
    obtain ⟨ins, outs⟩ := p
    simp only [] at hr
    exact RResult.noConfusion hr

theorem verify_coinbase_error_kind (H : HashFn) (C : Consts) (b : Block) (h : Nat)
    (utxos : List (Nat × TransactionOutput)) (e : SbdError)
    (hr : b.verify_coinbase_transaction H C h utxos = some (.error e)) :
    e = .InvalidTransaction := by
  rw [Block.verify_coinbase_transaction] at hr
  cases hhd : b.transactions.head? with
  | none =>
    rw [hhd] at hr
    exact Option.noConfusion hr
  | some cb =>
    rw [hhd] at hr
    simp only [] at hr
    by_cases h1 : cb.inputs.length ≠ 0
    · rw [if_pos h1] at hr
      injection hr with hx
      injection hx with hy
      exact hy.symm
    · rw [if_neg h1] at hr
      by_cases h2 : cb.outputs.length = 0
      · rw [if_pos h2] at hr
        injection hr with hx
        injection hx with hy
        exact hy.symm
      · rw [if_neg h2] at hr
        cases hfee : b.calculate_miner_fees H utxos with
        | error e2 =>
          rw [hfee] at hr
          simp only [] at hr
          injection hr with hx
          injection hx with hy
          exact hy ▸ calculate_miner_fees_error_kind H b utxos e2 hfee
        | ok fees =>
          rw [hfee] at hr
          simp only [] at hr
          by_cases hz : C.HALVING_INTERVAL = 0
          · rw [if_pos hz] at hr
            exact Option.noConfusion hr
          · rw [if_neg hz] at hr
            by_cases hx64 : 64 ≤ h / C.HALVING_INTERVAL % 2 ^ 32
            · rw [if_pos hx64] at hr
              exact Option.noConfusion hr
            · rw [if_neg hx64] at hr
              by_cases h3 : outSum cb ≠ C.INITIAL_REWARD * 10 ^ 8 /
                  2 ^ (h / C.HALVING_INTERVAL % 2 ^ 32) + fees
              · rw [if_pos h3] at hr
                injection hr with hx
                injection hx with hy
                exact hy.symm
              · rw [if_neg h3] at hr
                injection hr with hx
                exact RResult.noConfusion hx

/-- **C6**: characterization of `Block::verify_transactions`. (1) It accepts
iff the block is non-empty, the coinbase verifies, no referenced output is
claimed twice within the block (traversal order — the block-wide
accumulator), and every non-coinbase transaction resolves all its inputs in
the UTXO set with verifying signatures and covers its outputs with its
inputs. (2) A block with zero transactions yields `InvalidTransaction`.
(3) An `InvalidSignature` outcome pinpoints an input whose referenced output
exists but whose signature fails against that output's public key. (4) Every
rejection is `InvalidTransaction` or `InvalidSignature`. -/
theorem verify_transactions_charn (H : HashFn) (C : Consts) (b : Block) (h : Nat)
    (utxos : List (Nat × TransactionOutput)) :
    (b.verify_transactions H C h utxos = some (.ok ()) ↔
      (b.transactions ≠ [] ∧
       b.verify_coinbase_transaction H C h utxos = some (.ok ()) ∧
       (prevsOf b.transactions.tail).Nodup ∧
       ∀ tx ∈ b.transactions.tail, GoodTx H utxos tx))
    ∧ (b.transactions = [] →
        b.verify_transactions H C h utxos = some (.error .InvalidTransaction))
    ∧ (b.verify_transactions H C h utxos = some (.error .InvalidSignature) →
        ∃ tx ∈ b.transactions.tail, ∃ i ∈ tx.inputs, ∃ o,
          alookup utxos i.prev_transaction_output_hash = some o ∧
          H.sigVerify i.signature i.prev_transaction_output_hash o.pubkey = false)
    ∧ (∀ e, b.verify_transactions H C h utxos = some (.error e) →
        e = .InvalidTransaction ∨ e = .InvalidSignature) := by
  by_cases hemp : b.transactions = []
  · have hval : b.verify_transactions H C h utxos = some (.error .InvalidTransaction) := by
      rw [Block.verify_transactions, if_pos hemp]
    refine ⟨?_, fun _ => hval, ?_, ?_⟩
    · rw [hval]
      constructor
      · intro hcon
        simp at hcon
      · rintro ⟨hne, -⟩
        exact absurd hemp hne
    · rw [hval]
      intro hcon
      simp at hcon
    · intro e he
      rw [hval] at he
      injection he with h1
      injection h1 with h2
      exact Or.inl h2.symm
  · have heq : b.verify_transactions H C h utxos
        = (match b.verify_coinbase_transaction H C h utxos with
          | none => none
          | some (.error e) => some (.error e)
          | some (.ok ()) => some (verifyTxLoop H utxos b.transactions.tail [])) := by
      rw [Block.verify_transactions, if_neg hemp]
    cases hcb : b.verify_coinbase_transaction H C h utxos with
    | none =>
      rw [hcb] at heq
      simp only [] at heq
      refine ⟨?_, fun hc => absurd hc hemp, ?_, ?_⟩
      · rw [heq]
        constructor
        · intro hcon
          exact Option.noConfusion hcon
        · rintro ⟨-, hcb2, -⟩
          exact Option.noConfusion hcb2
      · rw [heq]
        intro hcon
        exact Option.noConfusion hcon
      · intro e he
        rw [heq] at he
        exact Option.noConfusion he
    | some r =>
      cases r with
      | error e0 =>
        rw [hcb] at heq
        simp only [] at heq
        have he0 : e0 = .InvalidTransaction :=
          verify_coinbase_error_kind H C b h utxos e0 hcb
        refine ⟨?_, fun hc => absurd hc hemp, ?_, ?_⟩
        · rw [heq]
          constructor
          · intro hcon
            simp at hcon
          · rintro ⟨-, hcb2, -⟩
            injection hcb2 with h1
            exact RResult.noConfusion h1
        · rw [heq]
          intro hcon
          injection hcon with h1
          injection h1 with h2
          rw [he0] at h2
          exact SbdError.noConfusion h2
        · intro e he
          rw [heq] at he
          injection he with h1
          injection h1 with h2
          rw [← h2, he0]
          exact Or.inl rfl
      | ok u =>
        cases u
        rw [hcb] at heq
        simp only [] at heq
        refine ⟨?_, fun hc => absurd hc hemp, ?_, ?_⟩
        · rw [heq]
          simp only [Option.some.injEq]
          rw [verifyTxLoop_ok_iff H utxos b.transactions.tail []]
          constructor
          · rintro ⟨hnd, -, hgood⟩
            exact ⟨hemp, by simp, hnd, hgood⟩
          · rintro ⟨-, -, hnd, hgood⟩
            exact ⟨hnd, fun k _ => rfl, hgood⟩
        · rw [heq]
          intro he
          injection he with h1
          exact verifyTxLoop_sig_error H utxos b.transactions.tail [] h1
        · intro e he
          rw [heq] at he
          injection he with h1
          exact verifyTxLoop_error_kinds H utxos b.transactions.tail [] e h1

/-- Closed witness for C6: the fully valid `cBlock2` at height 1 satisfies
the characterization's conditions, so the theorem yields acceptance. -/
theorem verify_transactions_charn_witness :
    cBlock2.verify_transactions cHash cConsts 1 (stripMarks cChain1.utxos)
      = some (.ok ()) :=
  (verify_transactions_charn cHash cConsts cBlock2 1 (stripMarks cChain1.utxos)).1.mpr
    ⟨by decide, by decide, by decide, by
      intro tx htx
      have htx2 : tx = cSpendTx := by
        simpa [cBlock2, Block.transactions] using htx
      subst htx2
      refine ⟨?_, by decide⟩
      intro i hi
      have hi2 : i = ⟨100, 0⟩ := by
        simpa [cSpendTx, Transaction.inputs] using hi
      subst hi2
      exact ⟨cOut1, by decide, by decide⟩⟩

/-!
## Claim C10 — `Block::calculate_miner_fees`
-/

theorem mapValSum_cons (k : Nat) (o : TransactionOutput)
    (m : List (Nat × TransactionOutput)) :
    mapValSum ((k, o) :: m) = o.value + mapValSum m := by
  simp [mapValSum]

/-- All outputs of a transaction list, in traversal order. -/
def outsOf (txs : List Transaction) : List TransactionOutput :=
  txs.flatMap (·.outputs)

theorem outsOf_cons (tx : Transaction) (rest : List Transaction) :
    outsOf (tx :: rest) = tx.outputs ++ outsOf rest := by
  simp [outsOf]

/-- Spec-side deduplicated input total: with all referenced hashes pairwise
distinct, the fee loop's input map collects exactly one entry per input, so
its value total is the plain sum of the looked-up values. -/
def specInTotal (utxos : List (Nat × TransactionOutput)) (txs : List Transaction) : Nat :=
  (txs.map (fun t => specInSum utxos t.inputs)).sum

/-- Spec-side deduplicated output total. -/
def specOutTotal (txs : List Transaction) : Nat :=
  ((outsOf txs).map (·.value)).sum

theorem feeInsLoop_ok_iff (utxos : List (Nat × TransactionOutput)) :
    ∀ (inputs : List TransactionInput) (acc : List (Nat × TransactionOutput)),
    (∃ r, feeInsLoop utxos inputs acc = .ok r) ↔
      ((inputs.map (·.prev_transaction_output_hash)).Nodup ∧
       (∀ i ∈ inputs, alookup acc i.prev_transaction_output_hash = none) ∧
       ∀ i ∈ inputs, (alookup utxos i.prev_transaction_output_hash).isSome)
  | [], acc => by simp [feeInsLoop]
  | i :: rest, acc => by
    simp only [feeInsLoop]
    rcases hu : alookup utxos i.prev_transaction_output_hash with _ | o
    · constructor
      · rintro ⟨r, hr⟩
        exact RResult.noConfusion hr
      · rintro ⟨-, -, hpres⟩
        have := hpres i (by simp)
        rw [hu] at this
        simp at this
    · simp only []
      by_cases hacc : (alookup acc i.prev_transaction_output_hash).isSome
      · rw [if_pos hacc]
        constructor
        · rintro ⟨r, hr⟩
          exact RResult.noConfusion hr
        · rintro ⟨-, hfresh, -⟩
          rw [hfresh i (by simp)] at hacc
          simp at hacc
      · rw [if_neg hacc]
        rw [feeInsLoop_ok_iff utxos rest ((i.prev_transaction_output_hash, o) :: acc)]
        have haccnone : alookup acc i.prev_transaction_output_hash = none :=
          Option.not_isSome_iff_eq_none.mp hacc
        constructor
        · rintro ⟨hnd, hfresh, hpres⟩
          refine ⟨?_, ?_, ?_⟩
          · simp only [List.map_cons, List.nodup_cons]
            refine ⟨?_, hnd⟩
            intro hmem
            obtain ⟨j, hj, hjp⟩ := List.mem_map.mp hmem
            have := hfresh j hj
            rw [hjp, alookup_cons_eq_none] at this
            exact this.1 rfl
          · intro j hj
            rcases List.mem_cons.mp hj with rfl | hj
            · exact haccnone
            · exact ((alookup_cons_eq_none).mp (hfresh j hj)).2
          · intro j hj
            rcases List.mem_cons.mp hj with rfl | hj
            · rw [hu]
              rfl
            · exact hpres j hj
        · rintro ⟨hnd, hfresh, hpres⟩
          simp only [List.map_cons, List.nodup_cons] at hnd
          refine ⟨hnd.2, ?_, fun j hj => hpres j (List.mem_cons_of_mem i hj)⟩
          intro j hj
          rw [alookup_cons_eq_none]
          refine ⟨?_, hfresh j (List.mem_cons_of_mem i hj)⟩
          intro heq
          exact hnd.1 (heq ▸ List.mem_map.mpr ⟨j, hj, rfl⟩)

theorem feeInsLoop_ok_val (utxos : List (Nat × TransactionOutput)) :
    ∀ (inputs : List TransactionInput) (acc acc2 : List (Nat × TransactionOutput)),
    feeInsLoop utxos inputs acc = .ok acc2 →
    mapValSum acc2 = mapValSum acc + specInSum utxos inputs ∧
    (∀ k, alookup acc2 k = none ↔
      (k ∉ inputs.map (·.prev_transaction_output_hash) ∧ alookup acc k = none))
  | [], acc, acc2 => by
    simp only [feeInsLoop, RResult.ok.injEq]
    rintro rfl
    simp [specInSum_nil]
  | i :: rest, acc, acc2 => by
    simp only [feeInsLoop]
    rcases hu : alookup utxos i.prev_transaction_output_hash with _ | o
    · intro hr
      exact RResult.noConfusion hr
    · simp only []
      by_cases hacc : (alookup acc i.prev_transaction_output_hash).isSome
      · rw [if_pos hacc]
        intro hr
        exact RResult.noConfusion hr
      · rw [if_neg hacc]
        intro hr
        obtain ⟨hv, hchar⟩ := feeInsLoop_ok_val utxos rest
          ((i.prev_transaction_output_hash, o) :: acc) acc2 hr
        constructor
        · rw [hv, mapValSum_cons, specInSum_cons, hu]
          show o.value + mapValSum acc + specInSum utxos rest
            = mapValSum acc + (o.value + specInSum utxos rest)
          omega
        · intro k
          rw [hchar k, alookup_cons_eq_none]
          simp only [List.map_cons, List.mem_cons]
          constructor
          · rintro ⟨hk1, hk2, hk3⟩
            exact ⟨fun hor => hor.elim (fun he => hk2 he.symm) hk1, hk3⟩
          · rintro ⟨hk1, hk2⟩
            exact ⟨fun hm => hk1 (Or.inr hm), fun he => hk1 (Or.inl he.symm), hk2⟩

theorem feeOutsLoop_ok_iff (H : HashFn) :
    ∀ (outputs : List TransactionOutput) (acc : List (Nat × TransactionOutput)),
    (∃ r, feeOutsLoop H outputs acc = .ok r) ↔
      ((outputs.map H.outHash).Nodup ∧
       ∀ o ∈ outputs, alookup acc (H.outHash o) = none)
  | [], acc => by simp [feeOutsLoop]
  | o :: rest, acc => by
    simp only [feeOutsLoop]
    by_cases hacc : (alookup acc (H.outHash o)).isSome
    · rw [if_pos hacc]
      constructor
      · rintro ⟨r, hr⟩
        exact RResult.noConfusion hr
      · rintro ⟨-, hfresh⟩
        rw [hfresh o (by simp)] at hacc
        simp at hacc
    · rw [if_neg hacc]
      rw [feeOutsLoop_ok_iff H rest ((H.outHash o, o) :: acc)]
      have haccnone : alookup acc (H.outHash o) = none :=
        Option.not_isSome_iff_eq_none.mp hacc
      constructor
      · rintro ⟨hnd, hfresh⟩
        refine ⟨?_, ?_⟩
        · simp only [List.map_cons, List.nodup_cons]
          refine ⟨?_, hnd⟩
          intro hmem
          obtain ⟨j, hj, hjp⟩ := List.mem_map.mp hmem
          have := hfresh j hj
          rw [hjp, alookup_cons_eq_none] at this
          exact this.1 rfl
        · intro j hj
          rcases List.mem_cons.mp hj with rfl | hj
          · exact haccnone
          · exact ((alookup_cons_eq_none).mp (hfresh j hj)).2
      · rintro ⟨hnd, hfresh⟩
        simp only [List.map_cons, List.nodup_cons] at hnd
        refine ⟨hnd.2, ?_⟩
        intro j hj
        rw [alookup_cons_eq_none]
        refine ⟨?_, hfresh j (List.mem_cons_of_mem o hj)⟩
        intro heq
        exact hnd.1 (heq ▸ List.mem_map.mpr ⟨j, hj, rfl⟩)

theorem feeOutsLoop_ok_val (H : HashFn) :
    ∀ (outputs : List TransactionOutput) (acc acc2 : List (Nat × TransactionOutput)),
    feeOutsLoop H outputs acc = .ok acc2 →
    mapValSum acc2 = mapValSum acc + (outputs.map (·.value)).sum ∧
    (∀ k, alookup acc2 k = none ↔
      (k ∉ outputs.map H.outHash ∧ alookup acc k = none))
  | [], acc, acc2 => by
    simp only [feeOutsLoop, RResult.ok.injEq]
    rintro rfl
    simp
  | o :: rest, acc, acc2 => by
    simp only [feeOutsLoop]
    by_cases hacc : (alookup acc (H.outHash o)).isSome
    · rw [if_pos hacc]
      intro hr
      exact RResult.noConfusion hr
    · rw [if_neg hacc]
      intro hr
      obtain ⟨hv, hchar⟩ := feeOutsLoop_ok_val H rest ((H.outHash o, o) :: acc) acc2 hr
      constructor
      · rw [hv, mapValSum_cons]
        simp only [List.map_cons, List.sum_cons]
        omega
      · intro k
        rw [hchar k, alookup_cons_eq_none]
        simp only [List.map_cons, List.mem_cons]
        constructor
        · rintro ⟨hk1, hk2, hk3⟩
          exact ⟨fun hor => hor.elim (fun he => hk2 he.symm) hk1, hk3⟩
        · rintro ⟨hk1, hk2⟩
          exact ⟨fun hm => hk1 (Or.inr hm), fun he => hk1 (Or.inl he.symm), hk2⟩

theorem specInTotal_cons (utxos : List (Nat × TransactionOutput)) (tx : Transaction)
    (rest : List Transaction) :
    specInTotal utxos (tx :: rest) = specInSum utxos tx.inputs + specInTotal utxos rest := by
  simp [specInTotal]

theorem specOutTotal_cons (tx : Transaction) (rest : List Transaction) :
    specOutTotal (tx :: rest) = (tx.outputs.map (·.value)).sum + specOutTotal rest := by
  simp [specOutTotal, outsOf_cons]

theorem feeTxLoop_ok_iff (H : HashFn) (utxos : List (Nat × TransactionOutput)) :
    ∀ (txs : List Transaction) (ins outs : List (Nat × TransactionOutput)),
    (∃ r, feeTxLoop H utxos txs ins outs = .ok r) ↔
      ((prevsOf txs).Nodup ∧
       (∀ k ∈ prevsOf txs, alookup ins k = none) ∧
       (∀ tx ∈ txs, ∀ i ∈ tx.inputs, (alookup utxos i.prev_transaction_output_hash).isSome) ∧
       ((outsOf txs).map H.outHash).Nodup ∧
       (∀ k ∈ (outsOf txs).map H.outHash, alookup outs k = none))
  | [], ins, outs => by simp [feeTxLoop, prevsOf, outsOf]
  | tx :: rest, ins, outs => by
    simp only [feeTxLoop]
    cases hins : feeInsLoop utxos tx.inputs ins with
    | error e =>
      simp only []
      constructor
      · rintro ⟨r, hr⟩
        exact RResult.noConfusion hr
      · rintro ⟨hnd, hfresh, hpres, -, -⟩
        have hex : ∃ r, feeInsLoop utxos tx.inputs ins = .ok r := by
          rw [feeInsLoop_ok_iff]
          rw [prevsOf_cons, List.nodup_append] at hnd
          refine ⟨hnd.1, ?_, hpres tx (by simp)⟩
          intro i hi
          exact hfresh _ (by
            rw [prevsOf_cons]
            exact List.mem_append_left _ (List.mem_map.mpr ⟨i, hi, rfl⟩))
        obtain ⟨r, hr⟩ := hex
        rw [hins] at hr
        exact RResult.noConfusion hr
    | ok ins2 =>
      simp only []
      cases houts : feeOutsLoop H tx.outputs outs with
      | error e =>
        simp only []
        constructor
        · rintro ⟨r, hr⟩
          exact RResult.noConfusion hr
        · rintro ⟨-, -, -, hnd, hfresh⟩
          have hex : ∃ r, feeOutsLoop H tx.outputs outs = .ok r := by
            rw [feeOutsLoop_ok_iff]
            rw [outsOf_cons, List.map_append, List.nodup_append] at hnd
            refine ⟨hnd.1, ?_⟩
            intro o ho
            exact hfresh _ (by
              rw [outsOf_cons, List.map_append]
              exact List.mem_append_left _ (List.mem_map.mpr ⟨o, ho, rfl⟩))
          obtain ⟨r, hr⟩ := hex
          rw [houts] at hr
          exact RResult.noConfusion hr
      | ok outs2 =>
        simp only []
        rw [feeTxLoop_ok_iff H utxos rest ins2 outs2]
        obtain ⟨hnd1, hfr1, hpres1⟩ :=
          (feeInsLoop_ok_iff utxos tx.inputs ins).mp ⟨ins2, hins⟩
        obtain ⟨-, hchar1⟩ := feeInsLoop_ok_val utxos tx.inputs ins ins2 hins
        obtain ⟨hnd2, hfr2⟩ :=
          (feeOutsLoop_ok_iff H tx.outputs outs).mp ⟨outs2, houts⟩
        obtain ⟨-, hchar2⟩ := feeOutsLoop_ok_val H tx.outputs outs outs2 houts
        constructor
        · rintro ⟨hnd3, hfr3, hpres3, hnd4, hfr4⟩
          refine ⟨?_, ?_, ?_, ?_, ?_⟩
          · rw [prevsOf_cons, List.nodup_append]
            refine ⟨hnd1, hnd3, ?_⟩
            intro k hk1 hk2
            exact ((hchar1 k).mp (hfr3 k hk2)).1 hk1
          · intro k hk
            rcases List.mem_append.mp (by rwa [prevsOf_cons] at hk) with hk | hk
            · obtain ⟨i, hi, rfl⟩ := List.mem_map.mp hk
              exact hfr1 i hi
            · exact ((hchar1 k).mp (hfr3 k hk)).2
          · intro t ht
            rcases List.mem_cons.mp ht with rfl | ht
            · exact hpres1
            · exact hpres3 t ht
          · rw [outsOf_cons, List.map_append, List.nodup_append]
            refine ⟨hnd2, hnd4, ?_⟩
            intro k hk1 hk2
            exact ((hchar2 k).mp (hfr4 k hk2)).1 hk1
          · intro k hk
            rcases List.mem_append.mp
                (by rwa [outsOf_cons, List.map_append] at hk) with hk | hk
            · obtain ⟨o, ho, rfl⟩ := List.mem_map.mp hk
              exact hfr2 o ho
            · exact ((hchar2 k).mp (hfr4 k hk)).2
        · rintro ⟨hnd3, hfr3, hpres3, hnd4, hfr4⟩
          rw [prevsOf_cons, List.nodup_append] at hnd3
          rw [outsOf_cons, List.map_append, List.nodup_append] at hnd4
          refine ⟨hnd3.2.1, ?_, fun t ht => hpres3 t (List.mem_cons_of_mem tx ht),
            hnd4.2.1, ?_⟩
          · intro k hk
            refine (hchar1 k).mpr ⟨?_, hfr3 k (by
              rw [prevsOf_cons]
              exact List.mem_append_right _ hk)⟩
            intro hk1
            exact hnd3.2.2 hk1 hk
          · intro k hk
            refine (hchar2 k).mpr ⟨?_, hfr4 k (by
              rw [outsOf_cons, List.map_append]
              exact List.mem_append_right _ hk)⟩
            intro hk1
            exact hnd4.2.2 hk1 hk

theorem feeTxLoop_ok_val (H : HashFn) (utxos : List (Nat × TransactionOutput)) :
    ∀ (txs : List Transaction) (ins outs ins2 outs2 : List (Nat × TransactionOutput)),
    feeTxLoop H utxos txs ins outs = .ok (ins2, outs2) →
    mapValSum ins2 = mapValSum ins + specInTotal utxos txs ∧
    mapValSum outs2 = mapValSum outs + specOutTotal txs
  | [], ins, outs, ins2, outs2 => by
    simp only [feeTxLoop, RResult.ok.injEq, Prod.mk.injEq]
    rintro ⟨rfl, rfl⟩
    simp [specInTotal, specOutTotal, outsOf]
  | tx :: rest, ins, outs, ins2, outs2 => by
    simp only [feeTxLoop]
    cases hins : feeInsLoop utxos tx.inputs ins with
    | error e =>
      intro hr
      exact RResult.noConfusion hr
    | ok insM =>
      simp only []
      cases houts : feeOutsLoop H tx.outputs outs with
      | error e =>
        intro hr
        exact RResult.noConfusion hr
      | ok outsM =>
        simp only []
        intro hr
        obtain ⟨hv1, hv2⟩ := feeTxLoop_ok_val H utxos rest insM outsM ins2 outs2 hr
        obtain ⟨hvi, -⟩ := feeInsLoop_ok_val utxos tx.inputs ins insM hins
        obtain ⟨hvo, -⟩ := feeOutsLoop_ok_val H tx.outputs outs outsM houts
        rw [specInTotal_cons, specOutTotal_cons]
        omega

/-- **C10**: `calculate_miner_fees` rejects (with an error) exactly when some
non-coinbase input is unresolved or duplicated across the block or some
output hash collides within the block; the final fee has no guard at all —
whenever those checks pass the function returns `Ok` with the unchecked
`u64` difference `input_total - output_total` over the deduplicated maps
(wrapping on underflow), even when the output total exceeds the input
total. -/
theorem calculate_miner_fees_charn (H : HashFn) (b : Block)
    (utxos : List (Nat × TransactionOutput)) :
    ((∃ v, b.calculate_miner_fees H utxos = .ok v) ↔
      ((prevsOf b.transactions.tail).Nodup ∧
       (∀ tx ∈ b.transactions.tail, ∀ i ∈ tx.inputs,
         (alookup utxos i.prev_transaction_output_hash).isSome) ∧
       ((outsOf b.transactions.tail).map H.outHash).Nodup))
    ∧ ((prevsOf b.transactions.tail).Nodup →
       (∀ tx ∈ b.transactions.tail, ∀ i ∈ tx.inputs,
         (alookup utxos i.prev_transaction_output_hash).isSome) →
       ((outsOf b.transactions.tail).map H.outHash).Nodup →
       b.calculate_miner_fees H utxos
         = .ok (u64sub (specInTotal utxos b.transactions.tail)
             (specOutTotal b.transactions.tail))) := by
  have hiff := feeTxLoop_ok_iff H utxos b.transactions.tail [] []
  constructor
  · rw [Block.calculate_miner_fees]
    cases hfee : feeTxLoop H utxos b.transactions.tail [] [] with
    | error e =>
      simp only []
      constructor
      · rintro ⟨v, hv⟩
        exact RResult.noConfusion hv
      · rintro ⟨hnd1, hpres, hnd2⟩
        obtain ⟨r, hr⟩ := hiff.mpr ⟨hnd1, fun k _ => rfl, hpres, hnd2, fun k _ => rfl⟩
        rw [hfee] at hr
        exact RResult.noConfusion hr
    | ok p =>
      obtain ⟨ins, outs⟩ := p
      simp only []
      constructor
      · intro _
        obtain ⟨hnd1, -, hpres, hnd2, -⟩ := hiff.mp ⟨(ins, outs), hfee⟩
        exact ⟨hnd1, hpres, hnd2⟩
      · intro _
        exact ⟨_, rfl⟩
  · intro hnd1 hpres hnd2
    obtain ⟨⟨ins, outs⟩, hr⟩ :=
      hiff.mpr ⟨hnd1, fun k _ => rfl, hpres, hnd2, fun k _ => rfl⟩
    obtain ⟨hv1, hv2⟩ := feeTxLoop_ok_val H utxos b.transactions.tail [] [] ins outs hr
    rw [Block.calculate_miner_fees, hr]
    simp only []
    rw [hv1, hv2]
    simp [mapValSum]

/-- A transaction spending the 5-valued UTXO at key `100` into a 50-valued
output: its deduplicated output total exceeds its input total by 45. -/
def cDeficitTx : Transaction := ⟨[⟨100, 0⟩], [⟨50, 21, 3⟩]⟩

def cDeficitBlock : Block := ⟨⟨5, 0, 0, 0, 10⟩, [⟨[], [cOut1]⟩, cDeficitTx]⟩

/-- Closed witness for C10: on `cDeficitBlock` every dedup/resolution check
passes, the deduplicated input total is 5 and the output total 50, and
`calculate_miner_fees` returns `Ok` with the wrapped difference
`2^64 - 45` instead of any error. -/
theorem calculate_miner_fees_charn_witness :
    (prevsOf cDeficitBlock.transactions.tail).Nodup ∧
    (∀ tx ∈ cDeficitBlock.transactions.tail, ∀ i ∈ tx.inputs,
      (alookup (stripMarks cChain1.utxos) i.prev_transaction_output_hash).isSome) ∧
    ((outsOf cDeficitBlock.transactions.tail).map cHash.outHash).Nodup ∧
    specInTotal (stripMarks cChain1.utxos) cDeficitBlock.transactions.tail = 5 ∧
    specOutTotal cDeficitBlock.transactions.tail = 50 ∧
    u64sub 5 50 = 18446744073709551571 ∧
    cDeficitBlock.calculate_miner_fees cHash (stripMarks cChain1.utxos)
      = .ok (u64sub (specInTotal (stripMarks cChain1.utxos) cDeficitBlock.transactions.tail)
          (specOutTotal cDeficitBlock.transactions.tail)) :=
  ⟨by decide, by decide, by decide, by decide, by decide, by decide,
    (calculate_miner_fees_charn cHash cDeficitBlock (stripMarks cChain1.utxos)).2
      (by decide) (by decide) (by decide)⟩

/-!
## Claim C9 — `MerkleRoot::calculate`
-/

/-- **C9**: on a non-empty transaction list the root exists (the empty list
is the caller's precondition — it would panic at `layer[0]`), the function
is deterministic, and it equals the spec-side formulation `merkleSpecRoot`:
hash each transaction, then repeatedly replace the level with the hashes of
adjacent pairs (the last element paired with itself when the level has odd
length) until a single hash remains. -/
theorem merkleRoot_calculate_charn (H : HashFn) (txs : List Transaction)
    (hne : txs ≠ []) :
    (∃ r, MerkleRoot.calculate H txs = some r) ∧
    MerkleRoot.calculate H txs = MerkleRoot.calculate H txs ∧
    MerkleRoot.calculate H txs = merkleSpecRoot H (txs.map H.txHash) := by
  refine ⟨?_, rfl, merkleLoop_eq_specRoot H (txs.map H.txHash)⟩
  have hmap : txs.map H.txHash ≠ [] := by simpa using hne
  exact Option.isSome_iff_exists.mp (merkleLoop_isSome H _ hmap)

/-- A hash collaborator with a non-degenerate pair digest, for evaluating the
merkle computation: a transaction's digest is its output count plus one, and
`pairHash a b = 2a + 3b + 1`. -/
def cHashM : HashFn where
  txHash := fun t => t.outputs.length + 1
  outHash := fun _ => 0
  headerHash := fun _ => 0
  blockHash := fun _ => 0
  pairHash := fun a b => 2 * a + 3 * b + 1
  sigVerify := fun _ _ _ => true

def cTxA : Transaction := ⟨[], []⟩

def cTxB : Transaction := ⟨[], [cOut1]⟩

def cTxC : Transaction := ⟨[], [cOut1, cOut2]⟩

/-- Closed witness for C9 at a three-transaction list (odd level exercising
the duplicate-last rule): leaves `[1, 2, 3]`, next level `[9, 16]`, root
`67`; the theorem applies and the computed root agrees with the spec-side
formulation. -/
theorem merkleRoot_calculate_charn_witness :
    ([cTxA, cTxB, cTxC] ≠ ([] : List Transaction)) ∧
    (∃ r, MerkleRoot.calculate cHashM [cTxA, cTxB, cTxC] = some r) ∧
    MerkleRoot.calculate cHashM [cTxA, cTxB, cTxC]
      = merkleSpecRoot cHashM ([cTxA, cTxB, cTxC].map cHashM.txHash) ∧
    MerkleRoot.calculate cHashM [cTxA, cTxB, cTxC] = some 67 :=
  have h := merkleRoot_calculate_charn cHashM [cTxA, cTxB, cTxC] (by decide)
  ⟨by decide, h.1, h.2.2, by
    simp [MerkleRoot.calculate, merkleLoop, hashPairs, cHashM, cTxA, cTxB, cTxC,
      cOut1, cOut2]⟩

/-!
## Claim C8 — `Blockchain::try_adjust_target`
-/

/-- Spec-side retarget formula, written from the claim's words: the old
target scaled by `elapsed / ideal` truncated toward zero, clamped into
`[old / 4, old * 4]`, and finally capped so it never exceeds `MIN_TARGET`. -/
def specRetarget (C : Consts) (oldTarget elapsed : Nat) : Nat :=
  min
    (if oldTarget * elapsed / (C.IDEAL_BLOCK_TIME * C.DIFFICULTY_UPDATE_INTERVAL)
        < oldTarget / 4 then
      oldTarget / 4
    else if oldTarget * elapsed / (C.IDEAL_BLOCK_TIME * C.DIFFICULTY_UPDATE_INTERVAL)
        > oldTarget * 4 then
      oldTarget * 4
    else oldTarget * elapsed / (C.IDEAL_BLOCK_TIME * C.DIFFICULTY_UPDATE_INTERVAL))
    C.MIN_TARGET

/-- **C8**: `try_adjust_target` is a no-op (returning the ledger unchanged)
unless the block count is a nonzero multiple of
`DIFFICULTY_UPDATE_INTERVAL`; and whenever it returns at a retarget
boundary, the new target is exactly `specRetarget` applied to the old target
and the elapsed seconds between the header timestamps of the block one
interval back and the tip — the scaled-truncated-clamped-capped value of the
claim. -/
theorem try_adjust_target_charn (C : Consts) (bc : Blockchain) :
    ((bc.blocks = [] ∨ bc.blocks.length % C.DIFFICULTY_UPDATE_INTERVAL ≠ 0) →
      bc.try_adjust_target C = some bc)
    ∧ (∀ bc', bc.blocks ≠ [] → bc.blocks.length % C.DIFFICULTY_UPDATE_INTERVAL = 0 →
        bc.try_adjust_target C = some bc' →
        ∃ firstB lastB,
          bc.blocks.get? (bc.blocks.length - C.DIFFICULTY_UPDATE_INTERVAL) = some firstB ∧
          bc.blocks.getLast? = some lastB ∧
          bc'.blocks = bc.blocks ∧ bc'.utxos = bc.utxos ∧ bc'.mempool = bc.mempool ∧
          bc'.target = specRetarget C bc.target
            (lastB.header.timestamp - firstB.header.timestamp).toNat) := by
  constructor
  · intro h
    rw [Blockchain.try_adjust_target]
    rcases h with h | h
    · rw [if_pos h]
    · by_cases hb : bc.blocks = []
      · rw [if_pos hb]
      · rw [if_neg hb, if_pos h]
  · intro bc' hne hmod h
    rw [Blockchain.try_adjust_target, if_neg hne,
      if_neg (show ¬ bc.blocks.length % C.DIFFICULTY_UPDATE_INTERVAL ≠ 0 from by
        simpa using hmod)] at h
    rcases hg : bc.blocks.get? (bc.blocks.length - C.DIFFICULTY_UPDATE_INTERVAL)
        with _ | firstB <;>
      rcases hl : bc.blocks.getLast? with _ | lastB <;>
      rw [hg, hl] at h
    · exact Option.noConfusion h
    · exact Option.noConfusion h
    · exact Option.noConfusion h
    · refine ⟨firstB, lastB, rfl, rfl, ?_⟩
      simp only [] at h
      by_cases ht0 : C.IDEAL_BLOCK_TIME * C.DIFFICULTY_UPDATE_INTERVAL = 0
      · rw [if_pos ht0] at h
        exact Option.noConfusion h
      rw [if_neg ht0] at h
      by_cases htd : lastB.header.timestamp - firstB.header.timestamp < 0
      · rw [if_pos htd] at h
        exact Option.noConfusion h
      rw [if_neg htd] at h
      by_cases hbig : bc.target * (lastB.header.timestamp - firstB.header.timestamp).toNat
          / (C.IDEAL_BLOCK_TIME * C.DIFFICULTY_UPDATE_INTERVAL) ≥ 2 ^ 256
      · rw [if_pos hbig] at h
        exact Option.noConfusion h
      rw [if_neg hbig] at h
      by_cases hlow : bc.target * (lastB.header.timestamp - firstB.header.timestamp).toNat
          / (C.IDEAL_BLOCK_TIME * C.DIFFICULTY_UPDATE_INTERVAL) < bc.target / 4
      · rw [if_pos hlow] at h
        injection h with h2
        subst h2
        exact ⟨rfl, rfl, rfl, by rw [specRetarget, if_pos hlow]⟩
      rw [if_neg hlow] at h
      by_cases hov : bc.target * 4 ≥ 2 ^ 256
      · rw [if_pos hov] at h
        exact Option.noConfusion h
      rw [if_neg hov] at h
      by_cases hhigh : bc.target * (lastB.header.timestamp - firstB.header.timestamp).toNat
          / (C.IDEAL_BLOCK_TIME * C.DIFFICULTY_UPDATE_INTERVAL) > bc.target * 4
      · rw [if_pos hhigh] at h
        injection h with h2
        subst h2
        exact ⟨rfl, rfl, rfl, by rw [specRetarget, if_neg hlow, if_pos hhigh]⟩
      rw [if_neg hhigh] at h
      injection h with h2
      subst h2
      exact ⟨rfl, rfl, rfl, by rw [specRetarget, if_neg hlow, if_neg hhigh]⟩

/-- Retarget fixture constants: interval 2, ideal block time 10 seconds. -/
def cConstsR : Consts where
  INITIAL_REWARD := 50
  HALVING_INTERVAL := 210000
  DIFFICULTY_UPDATE_INTERVAL := 2
  IDEAL_BLOCK_TIME := 10
  MIN_TARGET := 1000000
  MAX_MEMPOOL_TRANSACTION_AGE := 600

/-- A two-block chain at a retarget boundary: header timestamps 0 and 30
(elapsed 30 s against an ideal 20 s), current target 100. -/
def cChainR : Blockchain :=
  ⟨[⟨⟨0, 0, 0, 0, 10⟩, []⟩, ⟨⟨30, 0, 0, 0, 10⟩, []⟩], 100, [], []⟩

/-- Closed witness for C8: off the boundary (`cChain1`, one block, interval
2) the call is a no-op; at the boundary (`cChainR`) it fires, and the
theorem equates the new target with `specRetarget` — concretely
`100 * 30 / 20 = 150`, inside the clamp `[25, 400]` and under the cap. -/
theorem try_adjust_target_charn_witness :
    cChain1.try_adjust_target cConstsR = some cChain1 ∧
    cChainR.try_adjust_target cConstsR = some { cChainR with target := 150 } ∧
    specRetarget cConstsR 100 30 = 150 ∧
    (∃ firstB lastB,
      cChainR.blocks.get? (cChainR.blocks.length - cConstsR.DIFFICULTY_UPDATE_INTERVAL)
        = some firstB ∧
      cChainR.blocks.getLast? = some lastB ∧
      ({ cChainR with target := 150 } : Blockchain).blocks = cChainR.blocks ∧
      ({ cChainR with target := 150 } : Blockchain).utxos = cChainR.utxos ∧
      ({ cChainR with target := 150 } : Blockchain).mempool = cChainR.mempool ∧
      ({ cChainR with target := 150 } : Blockchain).target
        = specRetarget cConstsR cChainR.target
            (lastB.header.timestamp - firstB.header.timestamp).toNat) :=
  ⟨(try_adjust_target_charn cConstsR cChain1).1 (Or.inr (by decide)),
   by decide, by decide,
   (try_adjust_target_charn cConstsR cChainR).2 { cChainR with target := 150 }
     (by decide) (by decide) (by decide)⟩

/-!
## Claim C7 — `Blockchain::add_to_mempool` conflict resolution
-/

theorem alookup_setMark (u : List (Nat × (Bool × TransactionOutput))) (key k : Nat)
    (m : Bool) :
    alookup (setMark u key m) k
      = if key = k then (alookup u k).map (fun p => (m, p.2)) else alookup u k := by
  induction u with
  | nil => simp [setMark, alookup]
  | cons hd tl ih =>
    obtain ⟨k0, p⟩ := hd
    simp only [setMark, List.map_cons] at ih ⊢
    by_cases h0 : k0 = key <;> by_cases hk : k0 = k <;>
      simp_all [alookup_cons]
    rw [if_neg (fun h => h0 h.symm)]

theorem alookup_unmarkInputs (u : List (Nat × (Bool × TransactionOutput)))
    (l : List TransactionInput) (k : Nat) :
    alookup (unmarkInputs u l) k
      = if k ∈ l.map (·.prev_transaction_output_hash) then
          (alookup u k).map (fun p => (false, p.2))
        else alookup u k := by
  induction l generalizing u with
  | nil => simp [unmarkInputs]
  | cons i rest ih =>
    show alookup (unmarkInputs (setMark u i.prev_transaction_output_hash false) rest) k = _
    rw [ih, alookup_setMark]
    simp only [List.map_cons, List.mem_cons]
    by_cases h1 : k ∈ rest.map (·.prev_transaction_output_hash)
    · rw [if_pos h1, if_pos (Or.inr h1)]
      by_cases h2 : i.prev_transaction_output_hash = k
      · rw [if_pos h2, Option.map_map]
        rfl
      · rw [if_neg h2]
    · rw [if_neg h1]
      by_cases h2 : i.prev_transaction_output_hash = k
      · rw [if_pos h2, if_pos (Or.inl h2.symm)]
      · rw [if_neg h2, if_neg (by
          rintro (h | h)
          · exact h2 h.symm
          · exact h1 h)]

theorem alookup_markInputs (u : List (Nat × (Bool × TransactionOutput)))
    (l : List TransactionInput) (k : Nat) :
    alookup (markInputs u l) k
      = if k ∈ l.map (·.prev_transaction_output_hash) then
          (alookup u k).map (fun p => (true, p.2))
        else alookup u k := by
  induction l generalizing u with
  | nil => simp [markInputs]
  | cons i rest ih =>
    show alookup (markInputs (setMark u i.prev_transaction_output_hash true) rest) k = _
    rw [ih, alookup_setMark]
    simp only [List.map_cons, List.mem_cons]
    by_cases h1 : k ∈ rest.map (·.prev_transaction_output_hash)
    · rw [if_pos h1, if_pos (Or.inr h1)]
      by_cases h2 : i.prev_transaction_output_hash = k
      · rw [if_pos h2, Option.map_map]
        rfl
      · rw [if_neg h2]
    · rw [if_neg h1]
      by_cases h2 : i.prev_transaction_output_hash = k
      · rw [if_pos h2, if_pos (Or.inl h2.symm)]
      · rw [if_neg h2, if_neg (by
          rintro (h | h)
          · exact h2 h.symm
          · exact h1 h)]

theorem resolveOne_not_reserved (H : HashFn)
    (st : List (Nat × (Bool × TransactionOutput)) × List (Int × Transaction))
    (i : TransactionInput)
    (h : ∀ o, alookup st.1 i.prev_transaction_output_hash ≠ some (true, o)) :
    resolveOne H st i = st := by
  rw [resolveOne]
  rcases hu : alookup st.1 i.prev_transaction_output_hash with _ | ⟨b, o⟩
  · rfl
  · cases b
    · rfl
    · exact absurd hu (h o)

theorem resolveConflicts_not_reserved (H : HashFn) :
    ∀ (inputs : List TransactionInput)
      (st : List (Nat × (Bool × TransactionOutput)) × List (Int × Transaction)),
    (∀ j ∈ inputs, ∀ o, alookup st.1 j.prev_transaction_output_hash ≠ some (true, o)) →
    resolveConflicts H st inputs = st
  | [], st, _ => rfl
  | i :: rest, st, h => by
    show resolveConflicts H (resolveOne H st i) rest = st
    rw [resolveOne_not_reserved H st i (h i (by simp))]
    exact resolveConflicts_not_reserved H rest st (fun j hj => h j (by simp [hj]))

/-- The conflict loop on a transaction with exactly one reserved input: the
unreserved inputs are no-ops before and after, so the loop is the single
`resolveOne` step on the reserved input. -/
theorem resolveConflicts_split (H : HashFn)
    (u : List (Nat × (Bool × TransactionOutput))) (mp : List (Int × Transaction))
    (pre post : List TransactionInput) (i : TransactionInput) (o : TransactionOutput)
    (hi : alookup u i.prev_transaction_output_hash = some (true, o))
    (hpre : ∀ j ∈ pre, ∃ oj, alookup u j.prev_transaction_output_hash = some (false, oj))
    (hpost : ∀ j ∈ post, ∃ oj, alookup u j.prev_transaction_output_hash = some (false, oj)) :
    resolveConflicts H (u, mp) (pre ++ i :: post) = resolveOne H (u, mp) i := by
  rw [resolveConflicts, List.foldl_append]
  rw [show List.foldl (resolveOne H) (u, mp) pre = (u, mp) from
    resolveConflicts_not_reserved H pre (u, mp) (by
      intro j hj o2 hcon
      obtain ⟨oj, hoj⟩ := hpre j hj
      rw [hoj] at hcon
      simp at hcon)]
  show List.foldl (resolveOne H) (resolveOne H (u, mp) i) post = _
  apply resolveConflicts_not_reserved H post
  intro j hj o2 hcon
  obtain ⟨oj, hoj⟩ := hpost j hj
  rw [resolveOne] at hcon
  rw [hi] at hcon
  simp only [] at hcon
  rcases hf : findReferencing H mp i.prev_transaction_output_hash with _ | ⟨idx, t0, rtx⟩
  · rw [hf] at hcon
    simp only [] at hcon
    rw [alookup_setMark] at hcon
    by_cases hk : i.prev_transaction_output_hash = j.prev_transaction_output_hash
    · rw [if_pos hk, hoj] at hcon
      simp at hcon
    · rw [if_neg hk, hoj] at hcon
      simp at hcon
  · rw [hf] at hcon
    simp only [] at hcon
    rw [alookup_unmarkInputs] at hcon
    by_cases hk : j.prev_transaction_output_hash
        ∈ rtx.inputs.map (·.prev_transaction_output_hash)
    · rw [if_pos hk, hoj] at hcon
      simp at hcon
    · rw [if_neg hk, hoj] at hcon
      simp at hcon

theorem checkMempoolInputs_none_facts (utxos : List (Nat × (Bool × TransactionOutput))) :
    ∀ (inputs : List TransactionInput) (seen : List Nat),
    checkMempoolInputs utxos inputs seen = none →
    (∀ i ∈ inputs, (alookup utxos i.prev_transaction_output_hash).isSome) ∧
    (∀ i ∈ inputs, i.prev_transaction_output_hash ∉ seen) ∧
    (inputs.map (·.prev_transaction_output_hash)).Nodup
  | [], seen, _ => by simp
  | i :: rest, seen, h => by
    rw [checkMempoolInputs] at h
    by_cases h1 : (alookup utxos i.prev_transaction_output_hash).isNone
    · rw [if_pos h1] at h
      exact Option.noConfusion h
    · rw [if_neg h1] at h
      by_cases h2 : seen.contains i.prev_transaction_output_hash
      · rw [if_pos h2] at h
        exact Option.noConfusion h
      · rw [if_neg h2] at h
        obtain ⟨hp, hs, hnd⟩ := checkMempoolInputs_none_facts utxos rest
          (i.prev_transaction_output_hash :: seen) h
        refine ⟨?_, ?_, ?_⟩
        · intro j hj
          rcases List.mem_cons.mp hj with rfl | hj
          · exact Option.isSome_iff_ne_none.mpr
              (fun he => h1 (Option.isNone_iff_eq_none.mpr he))
          · exact hp j hj
        · intro j hj
          rcases List.mem_cons.mp hj with rfl | hj
          · intro hcon
            exact h2 (by simpa using hcon)
          · intro hcon
            exact hs j hj (List.mem_cons_of_mem _ hcon)
        · simp only [List.map_cons, List.nodup_cons]
          refine ⟨?_, hnd⟩
          intro hcon
          obtain ⟨j, hj, hjp⟩ := List.mem_map.mp hcon
          exact hs j hj (hjp ▸ List.mem_cons_self _ _)

/-- The claim-side input-value sum over the mark-carrying UTXO map. -/
def specMarkedInSum (u : List (Nat × (Bool × TransactionOutput)))
    (inputs : List TransactionInput) : Nat :=
  (inputs.map
    (fun i => ((alookup u i.prev_transaction_output_hash).map (·.2.value)).getD 0)).sum

theorem inputsValueSum_some (u : List (Nat × (Bool × TransactionOutput))) :
    ∀ (inputs : List TransactionInput),
    (∀ i ∈ inputs, (alookup u i.prev_transaction_output_hash).isSome) →
    inputsValueSum u inputs = some (specMarkedInSum u inputs)
  | [], _ => by simp [inputsValueSum, specMarkedInSum]
  | i :: rest, hp => by
    rw [inputsValueSum]
    rcases hu : alookup u i.prev_transaction_output_hash with _ | ⟨b, o⟩
    · have := hp i (by simp)
      rw [hu] at this
      simp at this
    · simp only []
      rw [inputsValueSum_some u rest (fun j hj => hp j (List.mem_cons_of_mem i hj))]
      simp only []
      congr 1
      show o.value + specMarkedInSum u rest = specMarkedInSum u (i :: rest)
      simp [specMarkedInSum, hu]

theorem specMarkedInSum_unmarkInputs (u : List (Nat × (Bool × TransactionOutput)))
    (l inputs : List TransactionInput) :
    specMarkedInSum (unmarkInputs u l) inputs = specMarkedInSum u inputs := by
  simp only [specMarkedInSum]
  congr 1
  apply List.map_congr_left
  intro i _
  rw [alookup_unmarkInputs]
  by_cases hk : i.prev_transaction_output_hash ∈ l.map (·.prev_transaction_output_hash)
  · rw [if_pos hk, Option.map_map]
    rfl
  · rw [if_neg hk]

theorem specMarkedInSum_setMark (u : List (Nat × (Bool × TransactionOutput)))
    (key : Nat) (m : Bool) (inputs : List TransactionInput) :
    specMarkedInSum (setMark u key m) inputs = specMarkedInSum u inputs := by
  simp only [specMarkedInSum]
  congr 1
  apply List.map_congr_left
  intro i _
  rw [alookup_setMark]
  by_cases hk : key = i.prev_transaction_output_hash
  · rw [if_pos hk, Option.map_map]
    rfl
  · rw [if_neg hk]

theorem isSome_alookup_unmarkInputs (u : List (Nat × (Bool × TransactionOutput)))
    (l : List TransactionInput) (k : Nat) :
    (alookup (unmarkInputs u l) k).isSome = (alookup u k).isSome := by
  rw [alookup_unmarkInputs]
  by_cases hk : k ∈ l.map (·.prev_transaction_output_hash)
  · rw [if_pos hk]
    cases alookup u k <;> rfl
  · rw [if_neg hk]

theorem isSome_alookup_setMark (u : List (Nat × (Bool × TransactionOutput)))
    (key k : Nat) (m : Bool) :
    (alookup (setMark u key m) k).isSome = (alookup u k).isSome := by
  rw [alookup_setMark]
  by_cases hk : key = k
  · rw [if_pos hk]
    cases alookup u k <;> rfl
  · rw [if_neg hk]

theorem isSome_alookup_markInputs (u : List (Nat × (Bool × TransactionOutput)))
    (l : List TransactionInput) (k : Nat) :
    (alookup (markInputs u l) k).isSome = (alookup u k).isSome := by
  rw [alookup_markInputs]
  by_cases hk : k ∈ l.map (·.prev_transaction_output_hash)
  · rw [if_pos hk]
    cases alookup u k <;> rfl
  · rw [if_neg hk]

theorem findReferencing_go_spec (H : HashFn) (key : Nat) :
    ∀ (mp : List (Int × Transaction)) (n idx : Nat) (e : Int × Transaction),
    findReferencing.go H key mp n = some (idx, e) →
    ∃ j, idx = n + j ∧ mp.get? j = some e ∧
      e.2.outputs.any (fun o => H.outHash o = key) = true
  | [], n, idx, e => by
    intro h
    exact Option.noConfusion h
  | hd :: rest, n, idx, e => by
    rw [findReferencing.go]
    by_cases hany : hd.2.outputs.any (fun o => H.outHash o = key)
    · rw [if_pos hany]
      intro h
      injection h with h2
      injection h2 with h3 h4
      subst h3
      subst h4
      exact ⟨0, by omega, rfl, hany⟩
    · rw [if_neg hany]
      intro h
      obtain ⟨j, hj1, hj2, hj3⟩ := findReferencing_go_spec H key rest (n + 1) idx e h
      exact ⟨j + 1, by omega, by simpa using hj2, hj3⟩

theorem findReferencing_spec (H : HashFn) (mp : List (Int × Transaction)) (key : Nat)
    (idx : Nat) (e : Int × Transaction)
    (h : findReferencing H mp key = some (idx, e)) :
    mp.get? idx = some e ∧ e.2.outputs.any (fun o => H.outHash o = key) = true := by
  obtain ⟨j, hj1, hj2, hj3⟩ := findReferencing_go_spec H key mp 0 idx e h
  have : idx = j := by omega
  subst this
  exact ⟨hj2, hj3⟩

theorem insortByKey_perm {α : Type} (x : Nat × α) :
    ∀ (l : List (Nat × α)), (insortByKey x l).Perm (x :: l)
  | [] => List.Perm.refl _
  | y :: rest => by
    rw [insortByKey]
    by_cases hy : y.1 ≤ x.1
    · rw [if_pos hy]
      exact ((insortByKey_perm x rest).cons y).trans (List.Perm.swap x y rest)
    · rw [if_neg hy]

theorem sortKeyed_perm {α : Type} :
    ∀ (l : List (Nat × α)), (sortKeyed l).Perm l
  | [] => List.Perm.refl _
  | x :: rest => by
    rw [sortKeyed]
    exact (insortByKey_perm x (sortKeyed rest)).trans ((sortKeyed_perm rest).cons x)

theorem sortMempoolByFee_keyed_some (u : List (Nat × (Bool × TransactionOutput))) :
    ∀ (mp : List (Int × Transaction)),
    (∀ e ∈ mp, ∀ j ∈ e.2.inputs, (alookup u j.prev_transaction_output_hash).isSome) →
    ∃ l, sortMempoolByFee.keyed u mp = some l ∧ l.map (·.2) = mp
  | [], _ => ⟨[], rfl, rfl⟩
  | e :: rest, hp => by
    rw [sortMempoolByFee.keyed]
    rw [inputsValueSum_some u e.2.inputs (hp e (by simp))]
    simp only []
    obtain ⟨l, hl1, hl2⟩ := sortMempoolByFee_keyed_some u rest
      (fun e2 he2 => hp e2 (List.mem_cons_of_mem e he2))
    rw [hl1]
    exact ⟨_, rfl, by simp [hl2]⟩

/-- Re-sorting the mempool by fee succeeds when every entry's inputs resolve,
and the result is a permutation of the input list. -/
theorem sortMempoolByFee_some (u : List (Nat × (Bool × TransactionOutput)))
    (mp : List (Int × Transaction))
    (hp : ∀ e ∈ mp, ∀ j ∈ e.2.inputs, (alookup u j.prev_transaction_output_hash).isSome) :
    ∃ mp2, sortMempoolByFee u mp = some mp2 ∧ mp2.Perm mp := by
  obtain ⟨l, hl1, hl2⟩ := sortMempoolByFee_keyed_some u mp hp
  rw [sortMempoolByFee, hl1]
  refine ⟨_, rfl, ?_⟩
  rw [← hl2]
  exact (sortKeyed_perm l).map (·.2)

/-- **C7**: mempool conflict resolution. For a submitted transaction passing
the known-and-distinct input validation whose input `i` (the only reserved
one) references a UTXO marked reserved, and which satisfies the value check:
if the mempool holds a pending transaction whose outputs hash to the disputed
UTXO key, the first such transaction is removed entirely, every UTXO its
inputs reference is unmarked, and the submission is admitted — the new
UTXO view is exactly `markInputs (unmarkInputs utxos rtx.inputs) tx.inputs`
and the new mempool is a fee-ordered permutation of the old one minus the
evicted entry plus `(now, tx)`; if no such pending transaction exists, only
the disputed UTXO is unmarked before the same admission. -/
theorem add_to_mempool_conflict (H : HashFn) (now : Int) (bc : Blockchain)
    (tx : Transaction) (pre post : List TransactionInput) (i : TransactionInput)
    (o : TransactionOutput)
    (hinputs : tx.inputs = pre ++ i :: post)
    (hchk : checkMempoolInputs bc.utxos tx.inputs [] = none)
    (hi : alookup bc.utxos i.prev_transaction_output_hash = some (true, o))
    (hpre : ∀ j ∈ pre, ∃ oj,
      alookup bc.utxos j.prev_transaction_output_hash = some (false, oj))
    (hpost : ∀ j ∈ post, ∃ oj,
      alookup bc.utxos j.prev_transaction_output_hash = some (false, oj))
    (hval : outSum tx ≤ specMarkedInSum bc.utxos tx.inputs)
    (hmp : ∀ e ∈ bc.mempool, ∀ j ∈ e.2.inputs,
      (alookup bc.utxos j.prev_transaction_output_hash).isSome) :
    (∀ idx t0 rtx, findReferencing H bc.mempool i.prev_transaction_output_hash
        = some (idx, (t0, rtx)) →
      bc.mempool.get? idx = some (t0, rtx) ∧
      rtx.outputs.any (fun o2 => H.outHash o2 = i.prev_transaction_output_hash) = true ∧
      ∃ bc', bc.add_to_mempool H now tx = some (.ok (), bc') ∧
        bc'.utxos = markInputs (unmarkInputs bc.utxos rtx.inputs) tx.inputs ∧
        bc'.mempool.Perm ((bc.mempool.eraseIdx idx) ++ [(now, tx)]))
    ∧ (findReferencing H bc.mempool i.prev_transaction_output_hash = none →
      ∃ bc', bc.add_to_mempool H now tx = some (.ok (), bc') ∧
        bc'.utxos = markInputs (setMark bc.utxos i.prev_transaction_output_hash false)
          tx.inputs ∧
        bc'.mempool.Perm (bc.mempool ++ [(now, tx)])) := by
  have hpres : ∀ j ∈ tx.inputs,
      (alookup bc.utxos j.prev_transaction_output_hash).isSome :=
    (checkMempoolInputs_none_facts bc.utxos tx.inputs [] hchk).1
  have hresolve : resolveConflicts H (bc.utxos, bc.mempool) tx.inputs
      = resolveOne H (bc.utxos, bc.mempool) i := by
    rw [hinputs]
    exact resolveConflicts_split H bc.utxos bc.mempool pre post i o hi hpre hpost
  constructor
  · intro idx t0 rtx hf
    obtain ⟨hget, hany⟩ := findReferencing_spec H bc.mempool
      i.prev_transaction_output_hash idx (t0, rtx) hf
    refine ⟨hget, hany, ?_⟩
    have hre : resolveOne H (bc.utxos, bc.mempool) i
        = (unmarkInputs bc.utxos rtx.inputs, bc.mempool.eraseIdx idx) := by
      rw [resolveOne]
      show (match alookup bc.utxos i.prev_transaction_output_hash with
        | some (true, _) =>
          match findReferencing H bc.mempool i.prev_transaction_output_hash with
          | some (idx2, (_, rtx2)) =>
            (unmarkInputs bc.utxos rtx2.inputs, bc.mempool.eraseIdx idx2)
          | none => (setMark bc.utxos i.prev_transaction_output_hash false, bc.mempool)
        | _ => (bc.utxos, bc.mempool)) = _
      rw [hi, hf]
    have hpres1 : ∀ j ∈ tx.inputs,
        (alookup (unmarkInputs bc.utxos rtx.inputs)
          j.prev_transaction_output_hash).isSome := by
      intro j hj
      rw [isSome_alookup_unmarkInputs]
      exact hpres j hj
    have hsum : specMarkedInSum (unmarkInputs bc.utxos rtx.inputs) tx.inputs
        = specMarkedInSum bc.utxos tx.inputs :=
      specMarkedInSum_unmarkInputs bc.utxos rtx.inputs tx.inputs
    have hp2 : ∀ e ∈ (bc.mempool.eraseIdx idx) ++ [(now, tx)], ∀ j ∈ e.2.inputs,
        (alookup (markInputs (unmarkInputs bc.utxos rtx.inputs) tx.inputs)
          j.prev_transaction_output_hash).isSome := by
      intro e he j hj
      rw [isSome_alookup_markInputs, isSome_alookup_unmarkInputs]
      rcases List.mem_append.mp he with he | he
      · exact hmp e ((List.eraseIdx_sublist bc.mempool idx).mem he) j hj
      · have : e = (now, tx) := by simpa using he
        subst this
        exact hpres j hj
    obtain ⟨mp3, hsort, hperm⟩ := sortMempoolByFee_some
      (markInputs (unmarkInputs bc.utxos rtx.inputs) tx.inputs)
      ((bc.mempool.eraseIdx idx) ++ [(now, tx)]) hp2
    refine ⟨{ bc with
        utxos := markInputs (unmarkInputs bc.utxos rtx.inputs) tx.inputs,
        mempool := mp3 }, ?_, rfl, hperm⟩
    rw [Blockchain.add_to_mempool, hchk]
    simp only [hresolve, hre]
    rw [inputsValueSum_some _ tx.inputs hpres1]
    simp only [hsum]
    rw [if_neg (by omega)]
    rw [hsort]
  · intro hf
    have hre : resolveOne H (bc.utxos, bc.mempool) i
        = (setMark bc.utxos i.prev_transaction_output_hash false, bc.mempool) := by
      rw [resolveOne]
      show (match alookup bc.utxos i.prev_transaction_output_hash with
        | some (true, _) =>
          match findReferencing H bc.mempool i.prev_transaction_output_hash with
          | some (idx2, (_, rtx2)) =>
            (unmarkInputs bc.utxos rtx2.inputs, bc.mempool.eraseIdx idx2)
          | none => (setMark bc.utxos i.prev_transaction_output_hash false, bc.mempool)
        | _ => (bc.utxos, bc.mempool)) = _
      rw [hi, hf]
    have hpres1 : ∀ j ∈ tx.inputs,
        (alookup (setMark bc.utxos i.prev_transaction_output_hash false)
          j.prev_transaction_output_hash).isSome := by
      intro j hj
      rw [isSome_alookup_setMark]
      exact hpres j hj
    have hsum : specMarkedInSum (setMark bc.utxos i.prev_transaction_output_hash false)
        tx.inputs = specMarkedInSum bc.utxos tx.inputs :=
      specMarkedInSum_setMark bc.utxos i.prev_transaction_output_hash false tx.inputs
    have hp2 : ∀ e ∈ bc.mempool ++ [(now, tx)], ∀ j ∈ e.2.inputs,
        (alookup (markInputs (setMark bc.utxos i.prev_transaction_output_hash false)
          tx.inputs) j.prev_transaction_output_hash).isSome := by
      intro e he j hj
      rw [isSome_alookup_markInputs, isSome_alookup_setMark]
      rcases List.mem_append.mp he with he | he
      · exact hmp e he j hj
      · have : e = (now, tx) := by simpa using he
        subst this
        exact hpres j hj
    obtain ⟨mp3, hsort, hperm⟩ := sortMempoolByFee_some
      (markInputs (setMark bc.utxos i.prev_transaction_output_hash false) tx.inputs)
      (bc.mempool ++ [(now, tx)]) hp2
    refine ⟨{ bc with
        utxos := markInputs (setMark bc.utxos i.prev_transaction_output_hash false)
          tx.inputs,
        mempool := mp3 }, ?_, rfl, hperm⟩
    rw [Blockchain.add_to_mempool, hchk]
    simp only [hresolve, hre]
    rw [inputsValueSum_some _ tx.inputs hpres1]
    simp only [hsum]
    rw [if_neg (by omega)]
    rw [hsort]

/-- A conflicting submission that passes the value check: spends the
reserved key `100` (worth 5) into a 4-valued output. -/
def cGoodConflictTx : Transaction := ⟨[⟨100, 0⟩], [⟨4, 30, 3⟩]⟩

/-- Closed witness for C7 at `cChainM`: submitting `cGoodConflictTx` (whose
only input references the UTXO reserved by the pending `cPendingTx`) evicts
`cPendingTx` (index 0, whose output hashes to the disputed key), unmarks its
reservations, and admits the new transaction. -/
theorem add_to_mempool_conflict_witness :
    cChainM.mempool.get? 0 = some (0, cPendingTx) ∧
    (cPendingTx.outputs.any (fun o2 => cHash.outHash o2
      = (⟨100, 0⟩ : TransactionInput).prev_transaction_output_hash)) = true ∧
    (∃ bc', cChainM.add_to_mempool cHash 50 cGoodConflictTx = some (.ok (), bc') ∧
      bc'.utxos = markInputs (unmarkInputs cChainM.utxos cPendingTx.inputs)
        cGoodConflictTx.inputs ∧
      bc'.mempool.Perm ((cChainM.mempool.eraseIdx 0) ++ [(50, cGoodConflictTx)])) :=
  (add_to_mempool_conflict cHash 50 cChainM cGoodConflictTx [] [] ⟨100, 0⟩ cOut1
    (by decide) (by decide) (by decide) (by simp) (by simp) (by decide) (by decide)).1
    0 0 cPendingTx (by decide)
